import Mathlib

/-!
Verification of the go-zed-tasks reconciliation pipeline.

This file gives a shallow embedding of the core functions of the
`go-zed-tasks` command (static test selection, subtest discovery policy,
label-keyed merging of generated task entries into a JSON document, and the
relaxed-JSON normalization), and proves or refutes the specified properties.

Conventions of the embedding:
* Go byte strings handled byte-by-byte are modelled as `List Char`.
* A JSON value decoded into Go's `any` is modelled by `JValue`; a document
  entry (`map[string]any`) is an association list of fields, looked up by key.
* External effects are inputs: the bytes of a file, the exit status and
  output of a subprocess, and the per-line result of `json.Unmarshal`
  (`Option goTestJSONEvent`: `none` for a line that does not decode) are
  passed as arguments to the embedded functions.
-/

namespace GoZedTasks

/-- JSON values as decoded by `encoding/json` into `any` (numbers carried
opaquely; no claim inspects numeric values). -/
inductive JValue where
  | null : JValue
  | bool : Bool → JValue
  | num : Int → JValue
  | str : String → JValue
  | arr : List JValue → JValue
  | obj : List (String × JValue) → JValue

/-- One document entry: a decoded `map[string]any`, as an association list
of its fields (keys unique in decoded JSON; lookup takes the first match). -/
abbrev Entry := List (String × JValue)

/-- The subset of the environment configuration inspected by the merge
engine (`PruneGenerated`, `GeneratedEnvKey`, `GeneratedEnvValue`). -/
structure Config where
  PruneGenerated : Bool
  GeneratedEnvKey : String
  GeneratedEnvValue : String

/-- `task[k]` on a decoded entry. -/
def fieldLookup (task : Entry) (k : String) : Option JValue :=
  (task.find? (fun p => p.1 == k)).map (·.2)

/-- `task["label"].(string)`: the label field when present and a JSON
string, `none` otherwise (the failed type assertion). -/
def labelField (task : Entry) : Option String :=
  match fieldLookup task "label" with
  | some (.str s) => some s
  | _ => none

/-- `label, _ := task["label"].(string)`: the failed assertion yields the
zero value `""`. -/
def effLabel (task : Entry) : String :=
  (labelField task).getD ""

/-- `isGenerated`: the entry's `env` field must be a JSON object whose value
under the configured marker key is a JSON string equal to the configured
marker value. -/
def isGenerated (cfg : Config) (task : Entry) : Bool :=
  match fieldLookup task "env" with
  | some (.obj env) =>
    match ((env.find? (fun p => p.1 == cfg.GeneratedEnvKey)).map (·.2) : Option JValue) with
    | some (.str v) => v == cfg.GeneratedEnvValue
    | _ => false
  | _ => false

/-- Counts reported by `mergeTasks`. -/
structure mergeStats where
  Added : Nat
  Updated : Nat
  Removed : Nat
deriving DecidableEq

/-- Lookup in the `labelIndex` map (modelled as an association list where
the most recent assignment is at the head). -/
def idxLookup (idx : List (String × Nat)) (label : String) : Option Nat :=
  (idx.find? (fun p => p.1 == label)).map (·.2)

/-- The `labelIndex` built by `mergeTasks` from the pruned list: for each
entry with a string label, `labelIndex[label] = i`; a later index overwrites
an earlier one, so lookup must find the last occurrence (head of the
reversed enumeration). -/
def buildLabelIndex (tasks : List Entry) : List (String × Nat) :=
  (tasks.enum.filterMap fun p => (labelField p.2).map fun s => (s, p.1)).reverse

/-- State of the upsert loop of `mergeTasks`. -/
structure MergeAcc where
  filtered : List Entry
  labelIndex : List (String × Nat)
  added : Nat
  updated : Nat

/-- One iteration of the upsert loop: replace in place at the indexed
position, or append and register the new index. -/
def mergeStep (acc : MergeAcc) (task : Entry) : MergeAcc :=
  let label := effLabel task
  match idxLookup acc.labelIndex label with
  | some idx =>
    ⟨acc.filtered.set idx task, acc.labelIndex, acc.added, acc.updated + 1⟩
  | none =>
    ⟨acc.filtered ++ [task], (label, acc.filtered.length) :: acc.labelIndex,
      acc.added + 1, acc.updated⟩

/-- `mergeTasks` (pure core: the already-read existing document is an
argument): prune generated entries when configured, index the remainder by
label, then upsert each generated entry. -/
def mergeTasks (cfg : Config) (existing generated : List Entry) :
    List Entry × mergeStats :=
  let filtered := existing.filter fun task =>
    !(cfg.PruneGenerated && isGenerated cfg task)
  let removed := existing.countP fun task =>
    cfg.PruneGenerated && isGenerated cfg task
  let acc := generated.foldl mergeStep ⟨filtered, buildLabelIndex filtered, 0, 0⟩
  (acc.filtered, ⟨acc.added, acc.updated, removed⟩)

/-- The core of `runClear`: drop every generated entry, count the drops. -/
def clearTasks (cfg : Config) (existing : List Entry) : List Entry × Nat :=
  (existing.filter fun task => !isGenerated cfg task,
   existing.countP fun task => isGenerated cfg task)

/-! ## Test selection and subtest discovery -/

/-- Byte-lexicographic comparison of strings as performed by `sort.Strings`
(modelled on code points; test names are ASCII). -/
def lexLe : List Char → List Char → Bool
  | [], _ => true
  | _ :: _, [] => false
  | a :: as, b :: bs => if a = b then lexLe as bs else decide (a < b)

/-- `a <= b` for `sort.Strings`. -/
def strLeB (a b : String) : Bool := lexLe a.toList b.toList

/-- `sort.Strings`: sorting into nondecreasing lexicographic order (the
algorithm is irrelevant; insertion sort realizes it). -/
def sortStrings (l : List String) : List String :=
  List.insertionSort (fun a b => strLeB a b = true) l

/-- `intersectTests`: the file-order candidates that the toolchain also
listed. -/
def intersectTests (fileTests : List String) (listed : List String) :
    List String :=
  fileTests.filter fun name => listed.contains name

/-- `mergeUniqueTests`: concatenate, keeping the first occurrence of each
name (the `seen` set holds exactly the names already emitted). -/
def mergeUniqueTests (base extra : List String) : List String :=
  (base ++ extra).foldl
    (fun merged t => if merged.contains t then merged else merged ++ [t]) []

/-- One decoded `go test -json` event. -/
structure goTestJSONEvent where
  Action : String
  Test : String

/-- `parseRunEventsFromGoTestJSON`: each line of the subprocess output is
decoded independently; a line is modelled by `none` when it is blank or
fails to decode (it is skipped), `some ev` when it decodes. Events with
action `run` and a non-empty test name are collected into a set, then
returned sorted. -/
def parseRunEventsFromGoTestJSON (lines : List (Option goTestJSONEvent)) :
    List String :=
  sortStrings
    ((((lines.filterMap id).filter
        fun ev => ev.Action == "run" && ev.Test != "").map (·.Test)).dedup)

/-- `discoverSubtestsWithGo` (pure core): the subprocess has been run; its
exit status (`exitFailure`) and decoded output lines are inputs. Fails only
when the subprocess failed and nothing was discovered. -/
def discoverSubtestsWithGo (topLevelTests : List String) (exitFailure : Bool)
    (lines : List (Option goTestJSONEvent)) : Except String (List String) :=
  if topLevelTests = [] then .ok []
  else
    let discovered := parseRunEventsFromGoTestJSON lines
    if exitFailure && discovered.isEmpty then .error "go test discovery failed"
    else .ok discovered

/-- The selection logic of `runGenerate`: `runnableTests` is the sorted
intersection; with `-discover-subtests` the discovered names are unioned in
and the result re-sorted. -/
def selectedTestsModel (testsInFile testsListedByGo discovered : List String)
    (discoverSubtests : Bool) : List String :=
  let runnableTests := sortStrings (intersectTests testsInFile testsListedByGo)
  if discoverSubtests then sortStrings (mergeUniqueTests runnableTests discovered)
  else runnableTests

/-! ## Run-selector construction (`runPatternForTestName`) -/

/-- The characters `regexp.QuoteMeta` escapes. -/
def isSpecialChar (c : Char) : Bool :=
  c ∈ ['\\', '.', '+', '*', '?', '(', ')', '|', '[', ']', '\x7b', '\x7d', '^', '$']

/-- `regexp.QuoteMeta`: prepend a backslash to every special character. -/
def quoteMeta : List Char → List Char
  | [] => []
  | c :: cs => if isSpecialChar c then '\\' :: c :: quoteMeta cs else c :: quoteMeta cs

/-- `strings.Split(s, "/")` for a one-character separator. -/
def splitOnChar (sep : Char) : List Char → List (List Char)
  | [] => [[]]
  | c :: cs =>
    if c = sep then [] :: splitOnChar sep cs
    else
      match splitOnChar sep cs with
      | [] => [[c]]
      | p :: ps => (c :: p) :: ps

/-- `strings.Join(parts, "/")` for a one-character separator. -/
def joinChar (sep : Char) : List (List Char) → List Char
  | [] => []
  | [p] => p
  | p :: ps => p ++ sep :: joinChar sep ps

/-- `runPatternForTestName`: split on `/`, anchor and escape each segment
independently, rejoin with `/`. -/
def runPatternForTestName (testName : List Char) : List Char :=
  if testName = [] then ['^', '$']
  else
    joinChar '/'
      ((splitOnChar '/' testName).map fun seg => '^' :: (quoteMeta seg ++ ['$']))

/-- Semantics of a quoted-literal regex body: undo the escaping; fails on a
dangling backslash or an unescaped metacharacter (never produced by
`quoteMeta`). -/
def unesc : List Char → Option (List Char)
  | [] => some []
  | c :: rest =>
    if c = '\\' then
      match rest with
      | [] => none
      | d :: rest' => (unesc rest').map (d :: ·)
    else if isSpecialChar c then none
    else (unesc rest).map (c :: ·)

/-- Synthetic matcher for one selector segment of the form `^…$`: it
matches a candidate segment exactly when the unescaped body equals it. -/
def anchoredSegMatch (pat s : List Char) : Bool :=
  match pat with
  | [] => false
  | c :: rest =>
    if c = '^' then
      if rest.getLast? = some '$' then
        match unesc rest.dropLast with
        | some lit => lit == s
        | none => false
      else false
    else false

/-- Synthetic matcher for a whole run-selector against a full test path:
`go test` matches the pattern level by level against the slash-separated
segments of the test name. -/
def fullMatch (pat name : List Char) : Bool :=
  let ps := splitOnChar '/' pat
  let ns := splitOnChar '/' name
  ps.length == ns.length && (ps.zip ns).all fun pr => anchoredSegMatch pr.1 pr.2

/-! ## Relaxed-JSON normalization and document reading -/

/-- State of the `stripJSONComments` scanner. -/
structure SCState where
  inString : Bool
  inLineComment : Bool
  inBlockComment : Bool
  escape : Bool
deriving DecidableEq

/-- The scanner's start state. -/
def scInit : SCState := ⟨false, false, false, false⟩

/-- The state while inside a string literal. -/
def scStr : SCState := ⟨true, false, false, false⟩

/-- The loop of `stripJSONComments`: one character at a time, with the
one-character lookahead for `*/`, `//` and `/*`. Returns the emitted output
and the final state. -/
def scLoop (st : SCState) : List Char → List Char × SCState
  | [] => ([], st)
  | c :: cs =>
    if st.inLineComment then
      if c = '\n' then
        let r := scLoop { st with inLineComment := false } cs
        (c :: r.1, r.2)
      else scLoop st cs
    else if st.inBlockComment then
      if c = '*' then
        match cs with
        | '/' :: rest => scLoop { st with inBlockComment := false } rest
        | cs' => scLoop st cs'
      else scLoop st cs
    else if st.inString then
      let st' :=
        if st.escape then { st with escape := false }
        else if c = '\\' then { st with escape := true }
        else if c = '"' then { st with inString := false }
        else st
      let r := scLoop st' cs
      (c :: r.1, r.2)
    else if c = '"' then
      let r := scLoop { st with inString := true } cs
      (c :: r.1, r.2)
    else if c = '/' then
      match cs with
      | '/' :: rest => scLoop { st with inLineComment := true } rest
      | '*' :: rest => scLoop { st with inBlockComment := true } rest
      | cs' =>
        let r := scLoop st cs'
        (c :: r.1, r.2)
    else
      let r := scLoop st cs
      (c :: r.1, r.2)

/-- `stripJSONComments`: run the scanner; unterminated block comments and
strings are errors. -/
def stripJSONComments (data : List Char) : Except String (List Char) :=
  let r := scLoop scInit data
  if r.2.inBlockComment then .error "unterminated block comment in tasks file"
  else if r.2.inString then .error "unterminated string in tasks file"
  else .ok r.1

/-- `isJSONWhitespace`. -/
def isJSONWhitespace (c : Char) : Bool :=
  c = ' ' || c = '\t' || c = '\n' || c = '\r'

/-- The loop of `stripTrailingCommas`: a comma outside a string is dropped
when the next non-whitespace character is `}` or `]` (lookahead only; the
scan resumes right after the comma). -/
def stcLoop (inStr esc : Bool) : List Char → List Char
  | [] => []
  | c :: cs =>
    if inStr then
      c ::
        (if esc then stcLoop true false cs
         else if c = '\\' then stcLoop true true cs
         else if c = '"' then stcLoop false esc cs
         else stcLoop true esc cs)
    else if c = '"' then c :: stcLoop true esc cs
    else if c = ',' then
      match (cs.dropWhile isJSONWhitespace).head? with
      | some '\x7d' => stcLoop inStr esc cs
      | some ']' => stcLoop inStr esc cs
      | _ => c :: stcLoop inStr esc cs
    else c :: stcLoop inStr esc cs

/-- `stripTrailingCommas`. -/
def stripTrailingCommas (data : List Char) : List Char :=
  stcLoop false false data

/-- `normalizeRelaxedJSON`: strip comments, then trailing commas. -/
def normalizeRelaxedJSON (data : List Char) : Except String (List Char) :=
  (stripJSONComments data).map stripTrailingCommas

/-- The ASCII bytes trimmed by `bytes.TrimSpace`. -/
def isSpaceGo (c : Char) : Bool :=
  c = ' ' || c = '\t' || c = '\n' || c = Char.ofNat 11 || c = Char.ofNat 12 || c = '\r'

/-- `bytes.TrimSpace` (ASCII fast path; the persisted documents are ASCII
at the boundaries). -/
def trimSpaceGo (l : List Char) : List Char :=
  ((l.dropWhile isSpaceGo).reverse.dropWhile isSpaceGo).reverse

/-- `readTasks` (pure core): the file contents are an input (`none` for an
absent file); `decode` stands for `json.Unmarshal` into `[]map[string]any`,
an external decoder applied to the normalized bytes. -/
def readTasks (decode : List Char → Except String (List Entry)) :
    Option (List Char) → Except String (List Entry)
  | none => .ok []
  | some data =>
    let trimmed := trimSpaceGo data
    if trimmed = [] then .ok []
    else
      match normalizeRelaxedJSON trimmed with
      | .error e => .error e
      | .ok normalized => decode normalized

/-! ## C9: recognition of machine-generated entries -/

/-- C9. An entry is recognized as machine-generated exactly when its `env`
field is a JSON object whose value under the configured marker key is a
JSON string equal to the configured marker value; an unrecognized entry is
kept by the clear operation, and the merge's removed count counts exactly
the recognized entries when pruning is enabled. -/
theorem isGenerated_characterization (cfg : Config) (e : Entry) :
    (isGenerated cfg e = true ↔
      ∃ env, fieldLookup e "env" = some (JValue.obj env) ∧
        ((env.find? (fun p => p.1 == cfg.GeneratedEnvKey)).map (·.2) :
            Option JValue) = some (JValue.str cfg.GeneratedEnvValue))
    ∧ (∀ existing, e ∈ existing → isGenerated cfg e = false →
        e ∈ (clearTasks cfg existing).1)
    ∧ (∀ existing generated, cfg.PruneGenerated = true →
        (mergeTasks cfg existing generated).2.Removed =
          existing.countP fun t => isGenerated cfg t) := by
  refine ⟨⟨fun h => ?_, fun h => ?_⟩, fun existing he hgen => ?_,
    fun existing generated hprune => ?_⟩
  · unfold isGenerated at h
    split at h
    next env henv =>
      split at h
      next v hv =>
        have hv' : v = cfg.GeneratedEnvValue := by simpa using h
        exact ⟨env, henv, by rw [hv, hv']⟩
      next => exact absurd h (by simp)
    next => exact absurd h (by simp)
  · obtain ⟨env, henv, hval⟩ := h
    unfold isGenerated
    rw [henv]
    simp [hval]
  · exact List.mem_filter.mpr ⟨he, by simp [hgen]⟩
  · simp only [mergeTasks, hprune, Bool.true_and]

/-- The default merge configuration (`PRUNE_GENERATED=true` and the default
marker key/value). -/
def cfgDefault : Config := ⟨true, "ZED_GO_TEST_TASK_GENERATED", "1"⟩

/-- An entry whose marker value decoded to the JSON number `1` rather than
the string `"1"`. -/
def entryNumMarker : Entry :=
  [("label", .str "go:TestAlpha"),
   ("env", .obj [("ZED_GO_TEST_TASK_GENERATED", .num 1)])]

/-- Witness for C9: the number-valued marker is not recognized, and the
entry survives a clear. -/
theorem isGenerated_characterization_witness :
    isGenerated cfgDefault entryNumMarker = false ∧
      entryNumMarker ∈ (clearTasks cfgDefault [entryNumMarker]).1 :=
  ⟨rfl, (isGenerated_characterization cfgDefault entryNumMarker).2.1
    [entryNumMarker] (by simp) rfl⟩

/-! ## C10: reading the persisted document -/

/-- C10. An absent file and a whitespace-only file both read as the empty
entry sequence without error; otherwise exactly the trimmed contents go
through relaxed normalization and then the standard decoder. -/
theorem readTasks_empty_handling
    (decode : List Char → Except String (List Entry)) :
    readTasks decode none = .ok []
    ∧ (∀ data, (∀ c ∈ data, isSpaceGo c = true) →
        readTasks decode (some data) = .ok [])
    ∧ (∀ data, trimSpaceGo data ≠ [] →
        readTasks decode (some data) =
          (normalizeRelaxedJSON (trimSpaceGo data)).bind decode) := by
  refine ⟨rfl, fun data hws => ?_, fun data hne => ?_⟩
  · have htrim : trimSpaceGo data = [] := by
      unfold trimSpaceGo
      rw [List.dropWhile_eq_nil_iff.mpr hws]
      simp
    simp [readTasks, htrim]
  · cases h : normalizeRelaxedJSON (trimSpaceGo data) <;>
      simp [readTasks, hne, h, Except.bind]

/-- A decoder standing in for `json.Unmarshal` in the closed witness. -/
def decodeNil : List Char → Except String (List Entry) := fun _ => .ok []

/-- Witness for C10: a file holding only whitespace reads as empty. -/
theorem readTasks_empty_handling_witness :
    (∀ c ∈ ("  \n\t ".toList), isSpaceGo c = true) ∧
      readTasks decodeNil (some ("  \n\t ".toList)) = .ok [] :=
  ⟨by decide, (readTasks_empty_handling decodeNil).2.1 _ (by decide)⟩

/-! ## Order and membership lemmas for the selection pipeline -/

theorem lexLe_total : ∀ a b, lexLe a b = true ∨ lexLe b a = true := by
  intro a
  induction a with
  | nil => intro b; left; rfl
  | cons x xs ih =>
    intro b
    cases b with
    | nil => right; rfl
    | cons y ys =>
      by_cases hxy : x = y
      · subst hxy
        simpa [lexLe] using ih ys
      · rcases lt_or_gt_of_ne hxy with h | h
        · left; simp [lexLe, hxy, h]
        · right; simp [lexLe, Ne.symm hxy, h]

theorem lexLe_trans :
    ∀ a b c, lexLe a b = true → lexLe b c = true → lexLe a c = true := by
  intro a
  induction a with
  | nil => intro b c _ _; rfl
  | cons x xs ih =>
    intro b c h1 h2
    cases b with
    | nil => simp [lexLe] at h1
    | cons y ys =>
      cases c with
      | nil => simp [lexLe] at h2
      | cons z zs =>
        by_cases hxy : x = y <;> by_cases hyz : y = z
        · subst hxy; subst hyz
          simp only [lexLe, if_pos rfl] at h1 h2 ⊢
          exact ih ys zs h1 h2
        · subst hxy
          simp only [lexLe, if_neg hyz] at h2 ⊢
          exact h2
        · subst hyz
          simp only [lexLe, if_neg hxy] at h1 ⊢
          exact h1
        · simp only [lexLe, if_neg hxy] at h1
          simp only [lexLe, if_neg hyz] at h2
          have hlt : x < z := lt_trans (of_decide_eq_true h1) (of_decide_eq_true h2)
          have hxz : x ≠ z := ne_of_lt hlt
          simp [lexLe, hxz, hlt]

instance strLeB_isTotal : IsTotal String (fun a b => strLeB a b = true) :=
  ⟨fun a b => lexLe_total a.toList b.toList⟩

instance strLeB_isTrans : IsTrans String (fun a b => strLeB a b = true) :=
  ⟨fun a b c => lexLe_trans a.toList b.toList c.toList⟩

theorem mem_sortStrings {x : String} {l : List String} :
    x ∈ sortStrings l ↔ x ∈ l :=
  (List.perm_insertionSort _ l).mem_iff

theorem sortStrings_sorted (l : List String) :
    List.Sorted (fun a b => strLeB a b = true) (sortStrings l) :=
  List.sorted_insertionSort _ l

theorem contains_iff_mem_str {l : List String} {a : String} :
    l.contains a = true ↔ a ∈ l := by
  simp [List.contains, List.elem_iff]

theorem mem_intersectTests {x : String} {fileTests listed : List String} :
    x ∈ intersectTests fileTests listed ↔ x ∈ fileTests ∧ x ∈ listed := by
  simp [intersectTests, List.mem_filter, contains_iff_mem_str]

theorem mem_mergeUnique_fold :
    ∀ (l acc : List String) (x : String),
      (x ∈ l.foldl
          (fun merged t => if merged.contains t then merged else merged ++ [t])
          acc) ↔ x ∈ acc ∨ x ∈ l := by
  intro l
  induction l with
  | nil => intro acc x; simp
  | cons t l ih =>
    intro acc x
    rw [List.foldl_cons, ih]
    by_cases hc : acc.contains t = true
    · rw [if_pos hc]
      constructor
      · rintro (h | h)
        · exact Or.inl h
        · exact Or.inr (List.mem_cons_of_mem t h)
      · rintro (h | h)
        · exact Or.inl h
        · rcases List.mem_cons.mp h with rfl | h
          · exact Or.inl (contains_iff_mem_str.mp hc)
          · exact Or.inr h
    · rw [if_neg hc]
      simp only [List.mem_append, List.mem_singleton, List.mem_cons]
      tauto

theorem mem_mergeUniqueTests {x : String} {base extra : List String} :
    x ∈ mergeUniqueTests base extra ↔ x ∈ base ∨ x ∈ extra := by
  rw [mergeUniqueTests, mem_mergeUnique_fold]
  simp

/-! ## C5: the selected test-name set -/

/-- C5 (amended). Without dynamic discovery the selected set is contained
in both the statically extracted names and the toolchain-listed names, and
a name declared in source but not listed is excluded. With dynamic
discovery every selected name is either statically-extracted-and-listed or
a dynamically discovered name; discovered names are not re-validated
against the static or listed sets. -/
theorem selectedTests_subset (f l d : List String) :
    (∀ x ∈ selectedTestsModel f l d false, x ∈ f ∧ x ∈ l)
    ∧ (∀ n, n ∈ f → n ∉ l → n ∉ selectedTestsModel f l d false)
    ∧ (∀ x ∈ selectedTestsModel f l d true, (x ∈ f ∧ x ∈ l) ∨ x ∈ d) := by
  refine ⟨fun x hx => ?_, fun n hn hnl hsel => ?_, fun x hx => ?_⟩
  · simpa [selectedTestsModel, mem_sortStrings, mem_intersectTests] using hx
  · have := (by simpa [selectedTestsModel, mem_sortStrings, mem_intersectTests]
      using hsel : n ∈ f ∧ n ∈ l)
    exact hnl this.2
  · simpa [selectedTestsModel, mem_sortStrings, mem_mergeUniqueTests,
      mem_intersectTests] using hx

/-- Counterexample to C5 as stated: with dynamic discovery enabled, a name
that is declared in the source file (`TestBeta`) and not reported runnable
by `go test -list`, but that shows up in a `run` event of the discovery
stream, is selected anyway. -/
theorem selectedTests_subset_counterexample :
    "TestBeta" ∈ selectedTestsModel ["TestAlpha", "TestBeta"] ["TestAlpha"]
        (parseRunEventsFromGoTestJSON
          [some ⟨"run", "TestAlpha"⟩, some ⟨"run", "TestBeta"⟩]) true
      ∧ "TestBeta" ∈ ["TestAlpha", "TestBeta"]
      ∧ "TestBeta" ∉ ["TestAlpha"] := by
  decide

/-- Witness for the amended C5: without discovery, the declared-but-unlisted
`TestBeta` is excluded from the selected set. -/
theorem selectedTests_subset_witness :
    "TestBeta" ∉ selectedTestsModel ["TestAlpha", "TestBeta"] ["TestAlpha"] [] false :=
  (selectedTests_subset ["TestAlpha", "TestBeta"] ["TestAlpha"] []).2.1
    "TestBeta" (by decide) (by decide)

/-! ## C8: discovery failure policy -/

/-- C8. With a nonempty top-level run set, discovery fails exactly when the
subprocess exited with failure and the parsed discovered set is empty;
whenever at least one name was discovered, it succeeds with the
deduplicated, sorted discovered set (the set of `run`-action, nonempty
test identifiers) regardless of exit status. -/
theorem discovery_failure_policy (topLevelTests : List String)
    (hne : topLevelTests ≠ []) (exitFailure : Bool)
    (lines : List (Option goTestJSONEvent)) :
    ((∃ msg, discoverSubtestsWithGo topLevelTests exitFailure lines = .error msg)
        ↔ exitFailure = true ∧ parseRunEventsFromGoTestJSON lines = [])
    ∧ (parseRunEventsFromGoTestJSON lines ≠ [] →
        discoverSubtestsWithGo topLevelTests exitFailure lines =
          .ok (parseRunEventsFromGoTestJSON lines))
    ∧ (parseRunEventsFromGoTestJSON lines).Nodup
    ∧ List.Sorted (fun a b => strLeB a b = true)
        (parseRunEventsFromGoTestJSON lines)
    ∧ (∀ x, x ∈ parseRunEventsFromGoTestJSON lines ↔
        ∃ ev, some ev ∈ lines ∧ ev.Action = "run" ∧ ev.Test ≠ "" ∧
          ev.Test = x) := by
  refine ⟨?_, fun hd => ?_, ?_, sortStrings_sorted _, fun x => ?_⟩
  · by_cases hfail :
      (exitFailure && (parseRunEventsFromGoTestJSON lines).isEmpty) = true
    · rw [Bool.and_eq_true, List.isEmpty_iff] at hfail
      simp [discoverSubtestsWithGo, hne, hfail.1, hfail.2]
    · constructor
      · rintro ⟨msg, hmsg⟩
        rw [discoverSubtestsWithGo, if_neg hne] at hmsg
        rw [if_neg hfail] at hmsg
        exact absurd hmsg (by simp)
      · rintro ⟨hf, hd⟩
        exact absurd (by simp [hf, hd]) hfail
  · rw [discoverSubtestsWithGo, if_neg hne, if_neg ?_]
    simp [List.isEmpty_iff, hd]
  · rw [parseRunEventsFromGoTestJSON]
    exact ((List.perm_insertionSort _ _).nodup_iff).mpr (List.nodup_dedup _)
  · rw [parseRunEventsFromGoTestJSON, mem_sortStrings, List.mem_dedup]
    simp only [List.mem_map, List.mem_filter, List.mem_filterMap, id_eq,
      Bool.and_eq_true, beq_iff_eq, bne_iff_ne, ne_eq, exists_eq_right]
    tauto

/-- The event stream of spec scenario 5: a run event, a subtest run event,
a non-decoding line, and a fail event. -/
def scenario5Lines : List (Option goTestJSONEvent) :=
  [some ⟨"run", "TestAlpha"⟩, some ⟨"run", "TestAlpha/case1"⟩, none,
   some ⟨"fail", "TestAlpha"⟩]

/-- Witness for C8: a failing exit status with a nonempty discovered set
still succeeds, returning the discovered names. -/
theorem discovery_failure_policy_witness :
    parseRunEventsFromGoTestJSON scenario5Lines ≠ [] ∧
      discoverSubtestsWithGo ["TestAlpha"] true scenario5Lines =
        .ok (parseRunEventsFromGoTestJSON scenario5Lines) :=
  ⟨by decide,
   (discovery_failure_policy ["TestAlpha"] (by decide) true scenario5Lines).2.1
     (by decide)⟩

/-! ## C6: run-selector lemmas -/

theorem splitOnChar_ne_nil (sep : Char) (l : List Char) :
    splitOnChar sep l ≠ [] := by
  induction l with
  | nil => simp [splitOnChar]
  | cons c cs ih =>
    rw [splitOnChar]
    split
    · simp
    · split
      · simp
      · simp

theorem not_mem_of_mem_splitOnChar {sep : Char} :
    ∀ {l : List Char}, ∀ p ∈ splitOnChar sep l, sep ∉ p := by
  intro l
  induction l with
  | nil =>
    intro p hp
    simp [splitOnChar] at hp
    simp [hp]
  | cons c cs ih =>
    intro p hp
    rw [splitOnChar] at hp
    split at hp
    · rcases List.mem_cons.mp hp with rfl | hp
      · simp
      · exact ih p hp
    · next hc =>
      split at hp
      · next hnil => exact absurd hnil (splitOnChar_ne_nil sep cs)
      · next q qs hq =>
        rcases List.mem_cons.mp hp with rfl | hp
        · intro hmem
          rcases List.mem_cons.mp hmem with rfl | hmem
          · exact hc rfl
          · exact ih q (hq ▸ List.mem_cons_self q qs) hmem
        · exact ih p (hq ▸ List.mem_cons_of_mem q hp)

theorem joinChar_splitOnChar (sep : Char) :
    ∀ l : List Char, joinChar sep (splitOnChar sep l) = l := by
  intro l
  induction l with
  | nil => rfl
  | cons c cs ih =>
    rw [splitOnChar]
    split
    · next hc =>
      subst hc
      obtain ⟨q, qs, hq⟩ := List.exists_cons_of_ne_nil (splitOnChar_ne_nil c cs)
      rw [hq]
      rw [hq] at ih
      cases qs with
      | nil => simpa [joinChar] using ih
      | cons r rs => simpa [joinChar] using ih
    · next hc =>
      rcases h : splitOnChar sep cs with _ | ⟨q, qs⟩
      · exact absurd h (splitOnChar_ne_nil sep cs)
      · rw [h] at ih
        cases qs with
        | nil =>
          simp only [joinChar] at ih ⊢
          rw [ih]
        | cons r rs =>
          simp only [joinChar] at ih ⊢
          rw [List.cons_append, ih]

theorem splitOnChar_of_not_mem {sep : Char} :
    ∀ {p : List Char}, sep ∉ p → splitOnChar sep p = [p] := by
  intro p
  induction p with
  | nil => intro _; rfl
  | cons c cs ih =>
    intro h
    have hc : ¬c = sep := fun hc => h (hc ▸ List.mem_cons_self c cs)
    rw [splitOnChar, if_neg hc, ih (fun hm => h (List.mem_cons_of_mem c hm))]

theorem splitOnChar_append_sep {sep : Char} :
    ∀ {p : List Char}, sep ∉ p → ∀ rest,
      splitOnChar sep (p ++ sep :: rest) = p :: splitOnChar sep rest := by
  intro p
  induction p with
  | nil =>
    intro _ rest
    simp [splitOnChar]
  | cons c cs ih =>
    intro h rest
    have hc : ¬c = sep := fun hc => h (hc ▸ List.mem_cons_self c cs)
    rw [List.cons_append, splitOnChar, if_neg hc,
      ih (fun hm => h (List.mem_cons_of_mem c hm)) rest]

theorem splitOnChar_joinChar {sep : Char} :
    ∀ {parts : List (List Char)}, parts ≠ [] → (∀ p ∈ parts, sep ∉ p) →
      splitOnChar sep (joinChar sep parts) = parts := by
  intro parts
  induction parts with
  | nil => intro h; exact absurd rfl h
  | cons p ps ih =>
    intro _ hall
    cases ps with
    | nil =>
      rw [joinChar]
      exact splitOnChar_of_not_mem (hall p (List.mem_cons_self p []))
    | cons q qs =>
      have h2 := ih (List.cons_ne_nil q qs)
        fun r hr => hall r (List.mem_cons_of_mem p hr)
      rw [show joinChar sep (p :: q :: qs) = p ++ sep :: joinChar sep (q :: qs)
          from rfl,
        splitOnChar_append_sep (hall p (List.mem_cons_self p _)), h2]

theorem mem_quoteMeta {c : Char} :
    ∀ {s : List Char}, c ∈ quoteMeta s → c = '\\' ∨ c ∈ s := by
  intro s
  induction s with
  | nil => intro h; simp [quoteMeta] at h
  | cons d ds ih =>
    intro h
    rw [quoteMeta] at h
    split at h
    · rcases List.mem_cons.mp h with rfl | h
      · exact Or.inl rfl
      · rcases List.mem_cons.mp h with rfl | h
        · exact Or.inr (List.mem_cons_self _ _)
        · rcases ih h with h | h
          · exact Or.inl h
          · exact Or.inr (List.mem_cons_of_mem _ h)
    · rcases List.mem_cons.mp h with rfl | h
      · exact Or.inr (List.mem_cons_self _ _)
      · rcases ih h with h | h
        · exact Or.inl h
        · exact Or.inr (List.mem_cons_of_mem _ h)

theorem slash_not_mem_quoteMeta {s : List Char} (h : '/' ∉ s) :
    '/' ∉ quoteMeta s := by
  intro hmem
  rcases mem_quoteMeta hmem with h' | h'
  · exact absurd h' (by decide)
  · exact h h'

theorem unesc_quoteMeta : ∀ s : List Char, unesc (quoteMeta s) = some s := by
  intro s
  induction s with
  | nil => rfl
  | cons c cs ih =>
    by_cases hspec : isSpecialChar c = true
    · rw [quoteMeta, if_pos hspec, unesc.eq_def]
      simp [ih]
    · rw [quoteMeta, if_neg hspec]
      have hc : ¬c = '\\' := fun hc => by
        rw [hc] at hspec
        exact hspec rfl
      rw [unesc.eq_def]
      simp [hc, hspec, ih]

/-- The per-segment selector builder used by `runPatternForTestName`. -/
def segPattern (seg : List Char) : List Char :=
  '^' :: (quoteMeta seg ++ ['$'])

theorem anchoredSegMatch_segPattern {seg s : List Char} :
    anchoredSegMatch (segPattern seg) s = true ↔ s = seg := by
  rw [segPattern, anchoredSegMatch, if_pos rfl, if_pos (List.getLast?_concat _),
    List.dropLast_concat, unesc_quoteMeta]
  show (seg == s) = true ↔ s = seg
  constructor
  · intro h
    exact (eq_of_beq h).symm
  · rintro rfl
    exact beq_self_eq_true _

theorem slash_not_mem_segPattern {seg : List Char} (h : '/' ∉ seg) :
    '/' ∉ segPattern seg := by
  rw [segPattern]
  intro hmem
  rcases List.mem_cons.mp hmem with h' | h'
  · exact absurd h' (by decide)
  · rcases List.mem_append.mp h' with h' | h'
    · exact slash_not_mem_quoteMeta h h'
    · exact absurd (List.mem_singleton.mp h') (by decide)

theorem zip_all_segMatch :
    ∀ (segs ms : List (List Char)), segs.length = ms.length →
      ((((segs.map segPattern).zip ms).all fun pr =>
          anchoredSegMatch pr.1 pr.2) = true ↔ ms = segs) := by
  intro segs
  induction segs with
  | nil =>
    intro ms hlen
    cases ms with
    | nil => simp
    | cons m ms => simp at hlen
  | cons seg segs ih =>
    intro ms hlen
    cases ms with
    | nil => simp at hlen
    | cons m ms =>
      simp only [List.map_cons, List.zip_cons_cons, List.all_cons,
        Bool.and_eq_true, List.cons.injEq]
      rw [anchoredSegMatch_segPattern, ih ms (by simpa using hlen)]

/-- C6. The produced run-selector is exactly the slash-separated segments,
each independently escaped and anchored, rejoined with `/`; for a flat name
it is the single anchored escaped name; and under the synthetic per-level
matcher the selector matches exactly the full test path and nothing else. -/
theorem runPattern_correct (n : List Char) :
    runPatternForTestName n =
      joinChar '/' ((splitOnChar '/' n).map segPattern)
    ∧ ('/' ∉ n → runPatternForTestName n = segPattern n)
    ∧ (∀ m, fullMatch (runPatternForTestName n) m = true ↔ m = n) := by
  have hshape : runPatternForTestName n =
      joinChar '/' ((splitOnChar '/' n).map segPattern) := by
    rw [runPatternForTestName]
    split
    · next hn => subst hn; rfl
    · rfl
  refine ⟨hshape, fun hflat => ?_, fun m => ?_⟩
  · rw [hshape, splitOnChar_of_not_mem hflat]
    rfl
  · have hsplit : splitOnChar '/' (runPatternForTestName n) =
        (splitOnChar '/' n).map segPattern := by
      rw [hshape]
      refine splitOnChar_joinChar (by simpa using splitOnChar_ne_nil '/' n) ?_
      intro p hp
      obtain ⟨seg, hseg, rfl⟩ := List.mem_map.mp hp
      exact slash_not_mem_segPattern (not_mem_of_mem_splitOnChar seg hseg)
    rw [fullMatch]
    simp only [hsplit, Bool.and_eq_true, beq_iff_eq, List.length_map]
    constructor
    · rintro ⟨hlen, hall⟩
      have hm : splitOnChar '/' m = splitOnChar '/' n :=
        (zip_all_segMatch (splitOnChar '/' n) (splitOnChar '/' m) hlen).mp hall
      have := congrArg (joinChar '/') hm
      rwa [joinChar_splitOnChar, joinChar_splitOnChar] at this
    · rintro rfl
      refine ⟨rfl, (zip_all_segMatch _ _ rfl).mpr rfl⟩

/-- Witness for C6 at the spec's example: the selector for
`Outer/Inner with space` matches exactly that path and rejects the
suffix-extended and prefix-extended variants. -/
theorem runPattern_correct_witness :
    fullMatch (runPatternForTestName ("Outer/Inner with space".toList))
        ("Outer/Inner with space".toList) = true
    ∧ fullMatch (runPatternForTestName ("Outer/Inner with space".toList))
        ("Outer/Inner with spacemore".toList) = false
    ∧ fullMatch (runPatternForTestName ("Outer/Inner with space".toList))
        ("XOuter/Inner with space".toList) = false := by
  refine ⟨((runPattern_correct _).2.2 _).mpr rfl, ?_, ?_⟩
  · by_contra h
    have := ((runPattern_correct ("Outer/Inner with space".toList)).2.2
      ("Outer/Inner with spacemore".toList)).mp (by simpa using h)
    exact absurd this (by decide)
  · by_contra h
    have := ((runPattern_correct ("Outer/Inner with space".toList)).2.2
      ("XOuter/Inner with space".toList)).mp (by simpa using h)
    exact absurd this (by decide)

/-! ## Merge-engine infrastructure -/

/-- The label at position `i` of an entry list (none when out of range or
when the entry has no string label). -/
def lblAt (l : List Entry) (i : Nat) : Option String :=
  l[i]?.bind labelField

theorem effLabel_of_labelField {task : Entry} {s : String}
    (h : labelField task = some s) : effLabel task = s := by
  rw [effLabel, h]
  rfl

theorem idxLookup_cons {s : String} {n : Nat} {idx : List (String × Nat)}
    {L : String} :
    idxLookup ((s, n) :: idx) L =
      if s == L then some n else idxLookup idx L := by
  rw [idxLookup, List.find?_cons]
  by_cases h : (s == L) = true
  · simp only [h]
    rfl
  · simp only [Bool.not_eq_true] at h
    simp only [h]
    rfl

theorem set_getElem?_self :
    ∀ (l : List Entry) (i : Nat) (a : Entry), l[i]? = some a → l.set i a = l := by
  intro l
  induction l with
  | nil => intro i a h; simp at h
  | cons x xs ih =>
    intro i a h
    cases i with
    | zero =>
      rw [List.getElem?_cons_zero, Option.some_inj] at h
      rw [List.set_cons_zero, h]
    | succ i =>
      rw [List.getElem?_cons_succ] at h
      rw [List.set_cons_succ, ih i a h]

theorem lblAt_append_left {l l' : List Entry} {i : Nat} (h : i < l.length) :
    lblAt (l ++ l') i = lblAt l i := by
  rw [lblAt, lblAt, List.getElem?_append, if_pos h]

theorem lblAt_concat_length {l : List Entry} {t : Entry} :
    lblAt (l ++ [t]) l.length = labelField t := by
  rw [lblAt, List.getElem?_concat_length]
  rfl

theorem lblAt_of_length_le {l : List Entry} {i : Nat} (h : l.length ≤ i) :
    lblAt l i = none := by
  rw [lblAt, List.getElem?_eq_none h]
  rfl

theorem lblAt_set_ne {l : List Entry} {k i : Nat} {g : Entry} (h : k ≠ i) :
    lblAt (l.set k g) i = lblAt l i := by
  rw [lblAt, lblAt, List.getElem?_set_ne h]

theorem lblAt_set_self {l : List Entry} {k : Nat} {g : Entry}
    (h : k < l.length) : lblAt (l.set k g) k = labelField g := by
  rw [lblAt, List.getElem?_set_self h]
  rfl

theorem buildLabelIndex_nil : buildLabelIndex [] = [] := rfl

theorem buildLabelIndex_concat (l : List Entry) (t : Entry) :
    buildLabelIndex (l ++ [t]) =
      (match labelField t with
       | some s => [(s, l.length)]
       | none => []) ++ buildLabelIndex l := by
  rw [buildLabelIndex, buildLabelIndex, List.enum_append, List.filterMap_append,
    List.reverse_append]
  congr 1
  cases h : labelField t <;> simp [List.enumFrom, h]

theorem idxLookup_buildLabelIndex_some :
    ∀ (l : List Entry) {L : String} {i : Nat},
      idxLookup (buildLabelIndex l) L = some i →
      i < l.length ∧ lblAt l i = some L ∧ ∀ j, i < j → lblAt l j ≠ some L := by
  intro l
  induction l using List.reverseRecOn with
  | nil => intro L i h; simp [buildLabelIndex_nil, idxLookup] at h
  | append_singleton l t ih =>
    intro L i h
    rw [buildLabelIndex_concat] at h
    cases hlt : labelField t with
    | none =>
      rw [hlt] at h
      simp only [List.nil_append] at h
      obtain ⟨hlen, hat, hlast⟩ := ih h
      refine ⟨by simpa using Nat.lt_succ_of_lt hlen, ?_, ?_⟩
      · rw [lblAt_append_left hlen, hat]
      · intro j hij
        rcases lt_trichotomy j l.length with hj | hj | hj
        · rw [lblAt_append_left hj]
          exact hlast j hij
        · subst hj
          rw [lblAt_concat_length, hlt]
          simp
        · rw [lblAt_of_length_le (by simpa using hj)]
          simp
    | some s =>
      rw [hlt] at h
      simp only [List.singleton_append] at h
      rw [idxLookup_cons] at h
      by_cases hs : (s == L) = true
      · rw [if_pos hs, Option.some_inj] at h
        subst h
        have hsL : s = L := by simpa using hs
        refine ⟨by simp, ?_, ?_⟩
        · rw [lblAt_concat_length, hlt, hsL]
        · intro j hij
          rw [lblAt_of_length_le (by simpa using hij)]
          simp
      · rw [if_neg hs] at h
        obtain ⟨hlen, hat, hlast⟩ := ih h
        refine ⟨by simpa using Nat.lt_succ_of_lt hlen, ?_, ?_⟩
        · rw [lblAt_append_left hlen, hat]
        · intro j hij
          rcases lt_trichotomy j l.length with hj | hj | hj
          · rw [lblAt_append_left hj]
            exact hlast j hij
          · subst hj
            rw [lblAt_concat_length, hlt]
            intro hcon
            rw [Option.some_inj] at hcon
            exact hs (by simpa using hcon)
          · rw [lblAt_of_length_le (by simpa using hj)]
            simp

theorem idxLookup_buildLabelIndex_of :
    ∀ (l : List Entry) {L : String} {i : Nat},
      lblAt l i = some L → (∀ j, i < j → lblAt l j ≠ some L) →
      idxLookup (buildLabelIndex l) L = some i := by
  intro l
  induction l using List.reverseRecOn with
  | nil =>
    intro L i h _
    rw [lblAt_of_length_le (by simp)] at h
    exact absurd h (by simp)
  | append_singleton l t ih =>
    intro L i hat hlast
    rw [buildLabelIndex_concat]
    rcases lt_trichotomy i l.length with hi | hi | hi
    · have hat' : lblAt l i = some L := by rwa [lblAt_append_left hi] at hat
      have hlast' : ∀ j, i < j → lblAt l j ≠ some L := by
        intro j hij hcon
        rcases Nat.lt_or_ge j l.length with hj | hj
        · exact hlast j hij (by rwa [lblAt_append_left hj])
        · rw [lblAt_of_length_le hj] at hcon
          exact absurd hcon (by simp)
      cases hlt : labelField t with
      | none => simpa using ih hat' hlast'
      | some s =>
        have hs : ¬(s == L) = true := by
          intro hs
          refine hlast l.length hi ?_
          rw [lblAt_concat_length, hlt]
          simpa using hs
        rw [List.singleton_append, idxLookup_cons, if_neg hs]
        exact ih hat' hlast'
    · subst hi
      rw [lblAt_concat_length] at hat
      rw [hat]
      rw [List.singleton_append, idxLookup_cons, if_pos (by simp)]
    · rw [lblAt_of_length_le (by simpa using hi)] at hat
      exact absurd hat (by simp)

/-! ## C2: non-generated entries with non-colliding labels are untouched -/

/-- Entries whose label collides with no generated entry's effective label
are never replaced by the upsert loop. -/
theorem mergeFold_keeps_fresh (G : List Entry) :
    ∀ (gs : List Entry), (∀ g ∈ gs, g ∈ G) →
    ∀ (f0 : List Entry) (acc : MergeAcc),
      f0.length ≤ acc.filtered.length →
      (∀ L i, idxLookup acc.labelIndex L = some i → i < f0.length →
        lblAt f0 i = some L) →
      (∀ (i : Nat) (e : Entry), f0[i]? = some e →
        (∀ g ∈ G, labelField e ≠ some (effLabel g)) →
        acc.filtered[i]? = some e) →
      (f0.length ≤ (gs.foldl mergeStep acc).filtered.length
        ∧ (∀ L i, idxLookup (gs.foldl mergeStep acc).labelIndex L = some i →
            i < f0.length → lblAt f0 i = some L)
        ∧ (∀ (i : Nat) (e : Entry), f0[i]? = some e →
            (∀ g ∈ G, labelField e ≠ some (effLabel g)) →
            (gs.foldl mergeStep acc).filtered[i]? = some e)) := by
  intro gs
  induction gs with
  | nil => intro _ f0 acc hA hK hB; exact ⟨hA, hK, hB⟩
  | cons g gs ih =>
    intro hsub f0 acc hA hK hB
    rw [List.foldl_cons]
    refine ih (fun g' hg' => hsub g' (List.mem_cons_of_mem g hg')) f0
      (mergeStep acc g) ?_ ?_ ?_
    · rw [mergeStep]
      cases hlk : idxLookup acc.labelIndex (effLabel g) with
      | some k => simpa using hA
      | none => simp only; calc f0.length ≤ acc.filtered.length := hA
                _ ≤ (acc.filtered ++ [g]).length := by simp
    · rw [mergeStep]
      cases hlk : idxLookup acc.labelIndex (effLabel g) with
      | some k => simpa using hK
      | none =>
        simp only
        intro L i hL hi
        rw [idxLookup_cons] at hL
        by_cases hs : (effLabel g == L) = true
        · rw [if_pos hs, Option.some_inj] at hL
          subst hL
          exact absurd hi (by omega)
        · rw [if_neg hs] at hL
          exact hK L i hL hi
    · rw [mergeStep]
      cases hlk : idxLookup acc.labelIndex (effLabel g) with
      | some k =>
        simp only
        intro i e hie hfresh
        have hprev := hB i e hie hfresh
        by_cases hik : k = i
        · subst hik
          have hk : k < f0.length := by
            obtain ⟨hlt, _⟩ := List.getElem?_eq_some.mp hie
            exact hlt
          have hatk : lblAt f0 k = some (effLabel g) := hK _ _ hlk hk
          rw [lblAt, hie] at hatk
          exact absurd hatk (hfresh g (hsub g (List.mem_cons_self g gs)))
        · rw [List.getElem?_set_ne hik, hprev]
      | none =>
        simp only
        intro i e hie hfresh
        have hprev := hB i e hie hfresh
        have hi : i < acc.filtered.length := by
          obtain ⟨hlt, _⟩ := List.getElem?_eq_some.mp hprev
          exact hlt
        rw [List.getElem?_append, if_pos hi]
        exact hprev

/-- Positionwise agreement on the entries satisfying `p` yields a sublist
of the filtered original. -/
theorem filter_sublist_of_pointwise {p : Entry → Bool} :
    ∀ (l₁ l₂ : List Entry),
      (∀ (i : Nat) (e : Entry), l₁[i]? = some e → p e = true → l₂[i]? = some e) →
      l₁.length ≤ l₂.length → (l₁.filter p).Sublist l₂ := by
  intro l₁
  induction l₁ with
  | nil => intro l₂ _ _; exact List.nil_sublist l₂
  | cons a l₁ ih =>
    intro l₂ hpt hlen
    cases l₂ with
    | nil => simp at hlen
    | cons b l₂ =>
      have htail : ∀ (i : Nat) (e : Entry), l₁[i]? = some e → p e = true →
          l₂[i]? = some e := by
        intro i e hie hp
        have := hpt (i + 1) e (by simpa using hie) hp
        simpa using this
      by_cases hpa : p a = true
      · have hb : b = a := by
          have := hpt 0 a (List.getElem?_cons_zero) hpa
          rw [List.getElem?_cons_zero, Option.some_inj] at this
          exact this
        subst hb
        rw [List.filter_cons_of_pos hpa]
        exact (ih l₂ htail (by simpa using hlen)).cons₂ _
      · rw [List.filter_cons_of_neg (by simpa using hpa)]
        exact (ih l₂ htail (by simpa using hlen)).cons b

/-- C2 (amended). Every entry of `D` that does not carry the marker and
whose label differs from the effective label of every generated entry
appears unchanged, in its relative order, in the merge result — under both
pruning policies. (An entry sharing its label with a generated entry is
replaced in place, which is what the counterexample exhibits.) -/
theorem merge_keeps_nonmarker (cfg : Config) (D G : List Entry) :
    (D.filter fun e => !isGenerated cfg e &&
        G.all fun g => labelField e != some (effLabel g)).Sublist
      (mergeTasks cfg D G).1 := by
  have hfold := mergeFold_keeps_fresh G G (fun _ h => h)
    (D.filter fun task => !(cfg.PruneGenerated && isGenerated cfg task))
    ⟨D.filter fun task => !(cfg.PruneGenerated && isGenerated cfg task),
      buildLabelIndex
        (D.filter fun task => !(cfg.PruneGenerated && isGenerated cfg task)),
      0, 0⟩
    (le_refl _)
    (fun L i h _ => (idxLookup_buildLabelIndex_some _ h).2.1)
    (fun i e hie _ => hie)
  obtain ⟨hA, _, hB⟩ := hfold
  have hsub : ((D.filter fun task =>
      !(cfg.PruneGenerated && isGenerated cfg task)).filter fun e =>
        !isGenerated cfg e &&
          G.all fun g => labelField e != some (effLabel g)).Sublist
      (mergeTasks cfg D G).1 := by
    rw [mergeTasks]
    refine filter_sublist_of_pointwise _ _ ?_ hA
    intro i e hie hp
    refine hB i e hie ?_
    intro g hg
    rw [Bool.and_eq_true, List.all_eq_true] at hp
    have := hp.2 g hg
    simpa using this
  rw [List.filter_filter] at hsub
  have hcongr : (D.filter fun a =>
      (!isGenerated cfg a && G.all fun g => labelField a != some (effLabel g))
        && !(cfg.PruneGenerated && isGenerated cfg a)) =
      D.filter fun e => !isGenerated cfg e &&
        G.all fun g => labelField e != some (effLabel g) := by
    refine List.filter_congr ?_
    intro a _
    by_cases hgen : isGenerated cfg a = true <;> simp [hgen]
  rwa [hcongr] at hsub

/-- A hand-written entry (no marker) whose label coincides with a
generated entry's label. -/
def userAlpha : Entry :=
  [("label", .str "go:TestAlpha"), ("command", .str "make")]

/-- A generated task entry for `TestAlpha` under the default config. -/
def genAlpha : Entry :=
  [("label", .str "go:TestAlpha"), ("command", .str "go"),
   ("env", .obj [("ZED_GO_TEST_TASK_GENERATED", .str "1"),
                 ("ZED_GO_TEST_NAME", .str "TestAlpha")])]

/-- Counterexample to C2 as stated: the non-marker entry `userAlpha` shares
its label with the generated entry, and it does not appear in the merge
result at all (it was overwritten in place). -/
theorem merge_keeps_nonmarker_counterexample :
    isGenerated cfgDefault userAlpha = false ∧
      userAlpha ∉ (mergeTasks cfgDefault [userAlpha] [genAlpha]).1 := by
  refine ⟨rfl, ?_⟩
  intro hmem
  have hM : (mergeTasks cfgDefault [userAlpha] [genAlpha]).1 = [genAlpha] := rfl
  rw [hM, List.mem_singleton] at hmem
  have hcast := congrArg (isGenerated cfgDefault) hmem
  rw [show isGenerated cfgDefault userAlpha = false from rfl,
    show isGenerated cfgDefault genAlpha = true from rfl] at hcast
  exact Bool.false_ne_true hcast

/-! ## C3: label uniqueness -/

/-- Two entries do not share a label: either the first has no string label,
or the labels differ. -/
def noSharedLabel (a b : Entry) : Prop :=
  labelField a = none ∨ labelField a ≠ labelField b

instance noSharedLabel_decidable : DecidableRel noSharedLabel := fun a b =>
  decidable_of_iff (labelField a = none ∨ labelField a ≠ labelField b) Iff.rfl

/-- Position form of pairwise label distinctness. -/
def labelsDistinctAt (l : List Entry) : Prop :=
  ∀ (i j : Nat) (L : String), lblAt l i = some L → lblAt l j = some L → i = j

theorem pairwise_iff_labelsDistinctAt {l : List Entry} :
    List.Pairwise noSharedLabel l ↔ labelsDistinctAt l := by
  rw [List.pairwise_iff_getElem]
  constructor
  · intro h i j L hi hj
    by_contra hij
    have hi' : i < l.length := by
      rcases Nat.lt_or_ge i l.length with h' | h'
      · exact h'
      · rw [lblAt_of_length_le h'] at hi; exact absurd hi (by simp)
    have hj' : j < l.length := by
      rcases Nat.lt_or_ge j l.length with h' | h'
      · exact h'
      · rw [lblAt_of_length_le h'] at hj; exact absurd hj (by simp)
    rw [lblAt, List.getElem?_eq_getElem hi'] at hi
    rw [lblAt, List.getElem?_eq_getElem hj'] at hj
    rcases Nat.lt_or_gt_of_ne hij with hlt | hlt
    · rcases h i j hi' hj' hlt with h' | h'
      · rw [show (some l[i]).bind labelField = labelField l[i] from rfl] at hi
        rw [h'] at hi
        exact absurd hi (by simp)
      · exact h' (by
          rw [show (some l[i]).bind labelField = labelField l[i] from rfl] at hi
          rw [show (some l[j]).bind labelField = labelField l[j] from rfl] at hj
          rw [hi, hj])
    · rcases h j i hj' hi' hlt with h' | h'
      · rw [show (some l[j]).bind labelField = labelField l[j] from rfl] at hj
        rw [h'] at hj
        exact absurd hj (by simp)
      · exact h' (by
          rw [show (some l[i]).bind labelField = labelField l[i] from rfl] at hi
          rw [show (some l[j]).bind labelField = labelField l[j] from rfl] at hj
          rw [hi, hj])
  · intro h i j hi hj hij
    by_cases hL : labelField l[i] = none
    · exact Or.inl hL
    · refine Or.inr fun heq => ?_
      obtain ⟨L, hL'⟩ := Option.ne_none_iff_exists'.mp hL
      have h1 : lblAt l i = some L := by
        rw [lblAt, List.getElem?_eq_getElem hi]
        exact hL'
      have h2 : lblAt l j = some L := by
        rw [lblAt, List.getElem?_eq_getElem hj]
        rw [show (some l[j]).bind labelField = labelField l[j] from rfl, ← heq]
        exact hL'
      exact absurd (h i j L h1 h2) (Nat.ne_of_lt hij)

/-- One upsert step preserves label distinctness and the property that the
index registers every labelled slot at its own position. -/
theorem mergeStep_labels_distinct (acc : MergeAcc) (g : Entry)
    (h1 : labelsDistinctAt acc.filtered)
    (h2 : ∀ (j : Nat) (L : String), lblAt acc.filtered j = some L →
      idxLookup acc.labelIndex L = some j) :
    labelsDistinctAt (mergeStep acc g).filtered ∧
      (∀ (j : Nat) (L : String), lblAt (mergeStep acc g).filtered j = some L →
        idxLookup (mergeStep acc g).labelIndex L = some j) := by
  rw [mergeStep]
  cases hlk : idxLookup acc.labelIndex (effLabel g) with
  | some k =>
    simp only
    rcases Nat.lt_or_ge acc.filtered.length k with hk | hk
    · rw [List.set_eq_of_length_le (Nat.le_of_lt hk)]
      exact ⟨h1, h2⟩
    · rcases Nat.eq_or_lt_of_le hk with hk | hk
      · rw [List.set_eq_of_length_le (Nat.le_of_eq hk.symm)]
        exact ⟨h1, h2⟩
      · have hgL : ∀ L : String, labelField g = some L →
            idxLookup acc.labelIndex L = some k := by
          intro L hL
          rwa [← effLabel_of_labelField hL]
        constructor
        · intro i j L hi hj
          by_cases hik : i = k <;> by_cases hjk : j = k
          · rw [hik, hjk]
          · subst hik
            rw [lblAt_set_self hk] at hi
            rw [lblAt_set_ne (Ne.symm hjk)] at hj
            have := h2 j L hj
            rw [hgL L hi] at this
            exact absurd (Option.some_inj.mp this).symm hjk
          · subst hjk
            rw [lblAt_set_self hk] at hj
            rw [lblAt_set_ne (Ne.symm hik)] at hi
            have := h2 i L hi
            rw [hgL L hj] at this
            exact (Option.some_inj.mp this).symm ▸ rfl
          · rw [lblAt_set_ne (Ne.symm hik)] at hi
            rw [lblAt_set_ne (Ne.symm hjk)] at hj
            exact h1 i j L hi hj
        · intro j L hj
          by_cases hjk : j = k
          · subst hjk
            rw [lblAt_set_self hk] at hj
            exact hgL L hj
          · rw [lblAt_set_ne (Ne.symm hjk)] at hj
            exact h2 j L hj
  | none =>
    simp only
    have key : ∀ (j : Nat), lblAt acc.filtered j ≠ some (effLabel g) := by
      intro j hcon
      rw [h2 j (effLabel g) hcon] at hlk
      exact Option.noConfusion hlk
    have hsplit : ∀ (i : Nat) (L : String),
        lblAt (acc.filtered ++ [g]) i = some L →
        (i < acc.filtered.length ∧ lblAt acc.filtered i = some L) ∨
          (i = acc.filtered.length ∧ labelField g = some L) := by
      intro i L hi
      rcases lt_trichotomy i acc.filtered.length with h | h | h
      · rw [lblAt_append_left h] at hi
        exact Or.inl ⟨h, hi⟩
      · subst h
        rw [lblAt_concat_length] at hi
        exact Or.inr ⟨rfl, hi⟩
      · rw [lblAt_of_length_le (by simpa using h)] at hi
        exact absurd hi (by simp)
    constructor
    · intro i j L hi hj
      rcases hsplit i L hi with ⟨hilt, hi'⟩ | ⟨hieq, hi'⟩ <;>
        rcases hsplit j L hj with ⟨hjlt, hj'⟩ | ⟨hjeq, hj'⟩
      · exact h1 i j L hi' hj'
      · exact absurd (effLabel_of_labelField hj' ▸ hi') (key i)
      · exact absurd (effLabel_of_labelField hi' ▸ hj') (key j)
      · rw [hieq, hjeq]
    · intro j L hj
      rcases hsplit j L hj with ⟨hjlt, hj'⟩ | ⟨hjeq, hj'⟩
      · have hne : ¬(effLabel g == L) = true := by
          intro hbeq
          exact key j (by rw [hj', show effLabel g = L from by simpa using hbeq])
        rw [idxLookup_cons, if_neg hne]
        exact h2 j L hj'
      · rw [idxLookup_cons, if_pos (by simp [effLabel_of_labelField hj']), hjeq]

/-- The upsert loop preserves label distinctness. -/
theorem mergeFold_labels_distinct :
    ∀ (gs : List Entry) (acc : MergeAcc),
      labelsDistinctAt acc.filtered →
      (∀ (j : Nat) (L : String), lblAt acc.filtered j = some L →
        idxLookup acc.labelIndex L = some j) →
      labelsDistinctAt (gs.foldl mergeStep acc).filtered := by
  intro gs
  induction gs with
  | nil => intro acc h1 _; exact h1
  | cons g gs ih =>
    intro acc h1 h2
    rw [List.foldl_cons]
    obtain ⟨h1', h2'⟩ := mergeStep_labels_distinct acc g h1 h2
    exact ih (mergeStep acc g) h1' h2'

/-- C3 (amended). If no two entries of the existing document share a label,
then no two entries of the merge result share a label — for every generated
set and under both pruning policies. -/
theorem merge_label_unique (cfg : Config) (D G : List Entry)
    (h : List.Pairwise noSharedLabel D) :
    List.Pairwise noSharedLabel (mergeTasks cfg D G).1 := by
  rw [mergeTasks]
  rw [pairwise_iff_labelsDistinctAt]
  set f0 := D.filter fun task => !(cfg.PruneGenerated && isGenerated cfg task)
    with hf0
  have hd0 : labelsDistinctAt f0 :=
    pairwise_iff_labelsDistinctAt.mp (h.filter _)
  refine mergeFold_labels_distinct G ⟨f0, buildLabelIndex f0, 0, 0⟩ hd0 ?_
  intro j L hj
  refine idxLookup_buildLabelIndex_of f0 hj ?_
  intro k hjk hcon
  exact absurd (hd0 j k L hj hcon) (Nat.ne_of_lt hjk)

/-- A first hand-written entry labelled `dup`. -/
def userDup1 : Entry := [("label", .str "dup"), ("command", .str "make")]

/-- A second hand-written entry also labelled `dup`. -/
def userDup2 : Entry := [("label", .str "dup"), ("command", .str "make2")]

/-- Counterexample to C3 as stated: a document with two user-authored
entries sharing a label still shares that label after merging a generated
set into it. -/
theorem merge_label_unique_counterexample :
    ¬ List.Pairwise noSharedLabel
        (mergeTasks cfgDefault [userDup1, userDup2] [genAlpha]).1 := by
  intro h
  have hM : (mergeTasks cfgDefault [userDup1, userDup2] [genAlpha]).1 =
      [userDup1, userDup2, genAlpha] := rfl
  rw [hM] at h
  rcases List.pairwise_cons.mp h with ⟨hrel, _⟩
  rcases hrel userDup2 (List.mem_cons_self _ _) with h' | h'
  · exact Option.noConfusion h'
  · exact h' rfl

/-- Witness for the amended C3 at a concrete distinct-label document. -/
theorem merge_label_unique_witness :
    List.Pairwise noSharedLabel [userDup1] ∧
      List.Pairwise noSharedLabel
        (mergeTasks cfgDefault [userDup1] [genAlpha]).1 :=
  ⟨by decide, merge_label_unique cfgDefault [userDup1] [genAlpha] (by decide)⟩

/-! ## C1: idempotence of reconciliation -/

theorem labelField_eq_some_effLabel {g : Entry}
    (h : (labelField g).isSome = true) : labelField g = some (effLabel g) := by
  cases hl : labelField g with
  | none => rw [hl] at h; exact absurd h (by simp)
  | some s => rw [effLabel, hl]; rfl

/-- The index always points at the last slot carrying each label. -/
def idxConsistent (acc : MergeAcc) : Prop :=
  ∀ (L : String) (i : Nat), idxLookup acc.labelIndex L = some i →
    i < acc.filtered.length ∧ lblAt acc.filtered i = some L ∧
      ∀ (j : Nat), i < j → lblAt acc.filtered j ≠ some L

/-- `g` sits at the slot its label is registered at. -/
def placed (acc : MergeAcc) (g : Entry) : Prop :=
  ∃ i : Nat, idxLookup acc.labelIndex (effLabel g) = some i ∧
    acc.filtered[i]? = some g

theorem mergeStep_consistent {acc : MergeAcc} {g : Entry}
    (hg : labelField g = some (effLabel g)) (hc : idxConsistent acc) :
    idxConsistent (mergeStep acc g) := by
  rw [mergeStep]
  cases hlk : idxLookup acc.labelIndex (effLabel g) with
  | some k =>
    simp only
    obtain ⟨hk, hlblk, _⟩ := hc (effLabel g) k hlk
    have hpt : ∀ (j : Nat), lblAt (acc.filtered.set k g) j = lblAt acc.filtered j := by
      intro j
      by_cases hjk : j = k
      · subst hjk
        rw [lblAt_set_self hk, hlblk, hg]
      · rw [lblAt_set_ne (Ne.symm hjk)]
    intro L i h
    obtain ⟨h1, h2, h3⟩ := hc L i h
    exact ⟨by simpa using h1, by rw [hpt i]; exact h2,
      fun j hij => by rw [hpt j]; exact h3 j hij⟩
  | none =>
    simp only
    intro L i h
    rw [idxLookup_cons] at h
    by_cases hs : (effLabel g == L) = true
    · rw [if_pos hs, Option.some_inj] at h
      subst h
      have hgl : effLabel g = L := by simpa using hs
      refine ⟨by simp, ?_, ?_⟩
      · rw [lblAt_concat_length, hg, hgl]
      · intro j hij
        rw [lblAt_of_length_le (by simpa using hij)]
        simp
    · rw [if_neg hs] at h
      obtain ⟨h1, h2, h3⟩ := hc L i h
      refine ⟨by simpa using Nat.lt_succ_of_lt h1, ?_, ?_⟩
      · rw [lblAt_append_left h1]
        exact h2
      · intro j hij
        rcases lt_trichotomy j acc.filtered.length with hj | hj | hj
        · rw [lblAt_append_left hj]
          exact h3 j hij
        · subst hj
          rw [lblAt_concat_length, hg]
          intro hcon
          exact hs (by simpa using (Option.some_inj.mp hcon))
        · rw [lblAt_of_length_le (by simpa using hj)]
          simp

theorem mergeStep_placed_self {acc : MergeAcc} {g : Entry}
    (hc : idxConsistent acc) : placed (mergeStep acc g) g := by
  rw [mergeStep]
  cases hlk : idxLookup acc.labelIndex (effLabel g) with
  | some k =>
    obtain ⟨hk, _, _⟩ := hc (effLabel g) k hlk
    exact ⟨k, hlk, List.getElem?_set_self hk⟩
  | none =>
    refine ⟨acc.filtered.length, ?_, ?_⟩
    · rw [idxLookup_cons, if_pos (by simp)]
    · exact List.getElem?_concat_length _ _

theorem mergeStep_placed_preserved {acc : MergeAcc} {g t : Entry}
    (hc : idxConsistent acc) (ht : placed acc t)
    (hne : effLabel t ≠ effLabel g) : placed (mergeStep acc g) t := by
  obtain ⟨i, hlook, hat⟩ := ht
  rw [mergeStep]
  cases hlk : idxLookup acc.labelIndex (effLabel g) with
  | some k =>
    refine ⟨i, hlook, ?_⟩
    obtain ⟨_, hlbli, _⟩ := hc (effLabel t) i hlook
    obtain ⟨_, hlblk, _⟩ := hc (effLabel g) k hlk
    have hik : i ≠ k := by
      intro hik
      subst hik
      rw [hlbli] at hlblk
      exact hne (Option.some_inj.mp hlblk)
    rw [List.getElem?_set_ne (Ne.symm hik)]
    exact hat
  | none =>
    refine ⟨i, ?_, ?_⟩
    · rw [idxLookup_cons, if_neg (by simpa using fun h => hne h.symm)]
      exact hlook
    · have hi : i < acc.filtered.length := (List.getElem?_eq_some.mp hat).1
      rw [List.getElem?_append, if_pos hi]
      exact hat

theorem mergeFold_placement :
    ∀ (gs : List Entry) (acc : MergeAcc),
      (∀ g ∈ gs, labelField g = some (effLabel g)) →
      (gs.map effLabel).Nodup →
      idxConsistent acc →
      idxConsistent (gs.foldl mergeStep acc)
        ∧ (∀ g ∈ gs, placed (gs.foldl mergeStep acc) g)
        ∧ (∀ t, placed acc t → effLabel t ∉ gs.map effLabel →
            placed (gs.foldl mergeStep acc) t) := by
  intro gs
  induction gs with
  | nil =>
    intro acc _ _ hc
    exact ⟨hc, by simp, fun t ht _ => ht⟩
  | cons g gs ih =>
    intro acc hlab hnodup hc
    rw [List.foldl_cons]
    have hg : labelField g = some (effLabel g) :=
      hlab g (List.mem_cons_self g gs)
    have hc' : idxConsistent (mergeStep acc g) := mergeStep_consistent hg hc
    obtain ⟨ihc, ihpl, ihpr⟩ := ih (mergeStep acc g)
      (fun g' hg' => hlab g' (List.mem_cons_of_mem g hg'))
      ((List.nodup_cons.mp (by simpa using hnodup)).2) hc'
    refine ⟨ihc, ?_, ?_⟩
    · intro g' hg'
      rcases List.mem_cons.mp hg' with rfl | hg'
      · exact ihpr g' (mergeStep_placed_self hc)
          ((List.nodup_cons.mp (by simpa using hnodup)).1)
      · exact ihpl g' hg'
    · intro t ht hnin
      have hnin' : effLabel t ∉ gs.map effLabel := by
        intro hmem
        exact hnin (by simpa using Or.inr hmem)
      have hne : effLabel t ≠ effLabel g := by
        intro heq
        exact hnin (by simpa using Or.inl heq)
      exact ihpr t (mergeStep_placed_preserved hc ht hne) hnin'

theorem mergeFold_noop :
    ∀ (gs : List Entry) (arr : List Entry) (idx : List (String × Nat)) (a u : Nat),
      (∀ g ∈ gs, ∃ i : Nat, idxLookup idx (effLabel g) = some i ∧
        arr[i]? = some g) →
      gs.foldl mergeStep ⟨arr, idx, a, u⟩ = ⟨arr, idx, a, u + gs.length⟩ := by
  intro gs
  induction gs with
  | nil => intro arr idx a u _; simp
  | cons g gs ih =>
    intro arr idx a u h
    obtain ⟨i, hlook, hat⟩ := h g (List.mem_cons_self g gs)
    rw [List.foldl_cons, show mergeStep ⟨arr, idx, a, u⟩ g =
        ⟨arr, idx, a, u + 1⟩ from by
      rw [mergeStep]
      simp only [hlook]
      rw [set_getElem?_self arr i g hat],
      ih arr idx a (u + 1) (fun g' hg' => h g' (List.mem_cons_of_mem g hg'))]
    congr 1
    simp [Nat.add_assoc, Nat.add_comm 1 gs.length]

/-- With pruning disabled the filter and removed count are trivial. -/
theorem mergeTasks_noprune {cfg : Config} (hprune : cfg.PruneGenerated = false)
    (existing generated : List Entry) :
    mergeTasks cfg existing generated =
      ((generated.foldl mergeStep
          ⟨existing, buildLabelIndex existing, 0, 0⟩).filtered,
       ⟨(generated.foldl mergeStep
          ⟨existing, buildLabelIndex existing, 0, 0⟩).added,
        (generated.foldl mergeStep
          ⟨existing, buildLabelIndex existing, 0, 0⟩).updated, 0⟩) := by
  rw [mergeTasks]
  simp [hprune]

/-- C1 (amended). For a generated set whose entries all carry string
labels, pairwise distinct, and with pruning disabled, a second merge of the
same generated set into the first merge's result returns the same document
and reports zero additions and zero removals (every generated entry is a
byte-identical in-place update). Under pruning-enabled policy the zero
counts fail: see the counterexample. -/
theorem merge_idempotent (cfg : Config) (D G : List Entry)
    (hprune : cfg.PruneGenerated = false)
    (hlab : ∀ g ∈ G, (labelField g).isSome = true)
    (hnodup : (G.map effLabel).Nodup) :
    mergeTasks cfg (mergeTasks cfg D G).1 G =
      ((mergeTasks cfg D G).1, ⟨0, G.length, 0⟩) := by
  have hlab' : ∀ g ∈ G, labelField g = some (effLabel g) :=
    fun g hg => labelField_eq_some_effLabel (hlab g hg)
  rw [mergeTasks_noprune hprune D G]
  rw [mergeTasks_noprune hprune _ G]
  have hc0 : idxConsistent ⟨D, buildLabelIndex D, 0, 0⟩ := by
    intro L i h
    exact idxLookup_buildLabelIndex_some D h
  obtain ⟨hcF, hplF, _⟩ :=
    mergeFold_placement G ⟨D, buildLabelIndex D, 0, 0⟩ hlab' hnodup hc0
  have hrun2 : ∀ g ∈ G, ∃ i : Nat,
      idxLookup (buildLabelIndex
        (G.foldl mergeStep ⟨D, buildLabelIndex D, 0, 0⟩).filtered)
        (effLabel g) = some i ∧
      (G.foldl mergeStep ⟨D, buildLabelIndex D, 0, 0⟩).filtered[i]? = some g := by
    intro g hg
    obtain ⟨i, hlook, hat⟩ := hplF g hg
    obtain ⟨_, hlbl, hlast⟩ := hcF (effLabel g) i hlook
    exact ⟨i, idxLookup_buildLabelIndex_of _ hlbl hlast, hat⟩
  rw [mergeFold_noop G _ _ 0 0 hrun2]
  simp

/-- Counterexample to C1 as stated: under the pruning-enabled default, the
second application of the same merge removes the generated entry and adds
it back, reporting added = 1 and removed = 1 rather than zero. -/
theorem merge_idempotent_counterexample :
    cfgDefault.PruneGenerated = true ∧
      (mergeTasks cfgDefault (mergeTasks cfgDefault [] [genAlpha]).1
          [genAlpha]).2 = ⟨1, 0, 1⟩ :=
  ⟨rfl, rfl⟩

/-- Witness for the amended C1 at a concrete no-prune configuration. -/
theorem merge_idempotent_witness :
    (⟨false, "ZED_GO_TEST_TASK_GENERATED", "1"⟩ : Config).PruneGenerated = false
    ∧ (∀ g ∈ [genAlpha], (labelField g).isSome = true)
    ∧ ([genAlpha].map effLabel).Nodup
    ∧ mergeTasks ⟨false, "ZED_GO_TEST_TASK_GENERATED", "1"⟩
        (mergeTasks ⟨false, "ZED_GO_TEST_TASK_GENERATED", "1"⟩ [userDup1]
          [genAlpha]).1 [genAlpha] =
      ((mergeTasks ⟨false, "ZED_GO_TEST_TASK_GENERATED", "1"⟩ [userDup1]
          [genAlpha]).1, ⟨0, 1, 0⟩) :=
  ⟨rfl, by decide, by decide,
    merge_idempotent ⟨false, "ZED_GO_TEST_TASK_GENERATED", "1"⟩ [userDup1]
      [genAlpha] rfl (by decide) (by decide)⟩

/-! ## C7: relaxed-JSON normalization preserves string literals -/

/-- A document carved into alternating non-string gaps and string literals:
each pair is (gap bytes, literal contents); the literal is rendered with
its surrounding quotes, and a final gap closes the document. -/
def renderDoc : List (List Char × List Char) → List Char → List Char
  | [], finalGap => finalGap
  | p :: ps, finalGap => p.1 ++ '"' :: (p.2 ++ '"' :: renderDoc ps finalGap)

/-- Well-formed string-literal contents: no unescaped quote and no dangling
backslash (what can legally stand between two quotes). -/
def strOK : List Char → Bool
  | [] => true
  | c :: cs =>
    if c = '\\' then
      match cs with
      | [] => false
      | _ :: cs' => strOK cs'
    else if c = '"' then false
    else strOK cs

/-- A well-formed gap: no quote, and scanning it from the neutral state
ends in the neutral state (no comment or string left open). -/
def gapOK (g : List Char) : Prop :=
  ¬ '"' ∈ g ∧ (scLoop scInit g).2 = scInit

/-- What normalization does to one gap: comment stripping then
trailing-comma stripping. -/
def gapT (g : List Char) : List Char :=
  stripTrailingCommas (scLoop scInit g).1

instance gapOK_decidable (g : List Char) : Decidable (gapOK g) :=
  decidable_of_iff (¬ '"' ∈ g ∧ (scLoop scInit g).2 = scInit) Iff.rfl

/-- The state inside a string right after a backslash. -/
def scEsc : SCState := ⟨true, false, false, true⟩

theorem strOK_bs {d : Char} {cs : List Char} :
    strOK ('\\' :: d :: cs) = strOK cs := by
  rw [strOK.eq_def]
  simp

theorem strOK_quote {cs : List Char} : strOK ('"' :: cs) = false := by
  rw [strOK.eq_def]
  simp

theorem strOK_other {c : Char} {cs : List Char} (h1 : ¬c = '\\')
    (h2 : ¬c = '"') : strOK (c :: cs) = strOK cs := by
  rw [strOK.eq_def]
  simp [h1, h2]

theorem scLoop_nil (st : SCState) : scLoop st [] = ([], st) := by
  rw [scLoop.eq_def]

theorem scLoop_str_bs (cs : List Char) :
    scLoop scStr ('\\' :: cs) =
      ('\\' :: (scLoop scEsc cs).1, (scLoop scEsc cs).2) := by
  rw [scLoop.eq_def]
  simp [scStr, scEsc]

theorem scLoop_esc (d : Char) (cs : List Char) :
    scLoop scEsc (d :: cs) =
      (d :: (scLoop scStr cs).1, (scLoop scStr cs).2) := by
  rw [scLoop.eq_def]
  simp [scStr, scEsc]

theorem scLoop_str_close (cs : List Char) :
    scLoop scStr ('"' :: cs) =
      ('"' :: (scLoop scInit cs).1, (scLoop scInit cs).2) := by
  rw [scLoop.eq_def]
  simp [scStr, scInit]

theorem scLoop_str_other {c : Char} (h1 : ¬c = '\\') (h2 : ¬c = '"')
    (cs : List Char) :
    scLoop scStr (c :: cs) =
      (c :: (scLoop scStr cs).1, (scLoop scStr cs).2) := by
  rw [scLoop.eq_def]
  simp [scStr, h1, h2]

theorem scLoop_init_quote (cs : List Char) :
    scLoop scInit ('"' :: cs) =
      ('"' :: (scLoop scStr cs).1, (scLoop scStr cs).2) := by
  rw [scLoop.eq_def]
  simp [scStr, scInit]

theorem scLoop_string_append :
    ∀ {b : List Char}, strOK b = true → ∀ tail,
      scLoop scStr (b ++ tail) =
        (b ++ (scLoop scStr tail).1, (scLoop scStr tail).2) := by
  intro b
  induction b using strOK.induct with
  | case1 => intro _ tail; simp [scLoop_nil]
  | case2 => intro h _; rw [strOK.eq_def] at h; simp at h
  | case3 d cs' ih =>
    intro h tail
    have h' : strOK cs' = true := by rwa [strOK_bs] at h
    rw [List.cons_append, List.cons_append, scLoop_str_bs, scLoop_esc,
      ih h' tail]
    simp
  | case4 cs' hne =>
    intro h _
    rw [strOK_quote] at h
    exact absurd h (by simp)
  | case5 c cs' hbs hq ih =>
    intro h tail
    have h' : strOK cs' = true := by rwa [strOK_other hbs hq] at h
    rw [List.cons_append, scLoop_str_other hbs hq, ih h' tail]
    simp

theorem scLoop_literal {b : List Char} (h : strOK b = true) (rest : List Char) :
    scLoop scInit ('"' :: (b ++ '"' :: rest)) =
      ('"' :: (b ++ '"' :: (scLoop scInit rest).1), (scLoop scInit rest).2) := by
  rw [scLoop_init_quote, scLoop_string_append h ('"' :: rest),
    scLoop_str_close]

theorem scLoop_line_nl {st : SCState} (h : st.inLineComment = true)
    (cs : List Char) :
    scLoop st ('\n' :: cs) =
      ('\n' :: (scLoop { st with inLineComment := false } cs).1,
        (scLoop { st with inLineComment := false } cs).2) := by
  rw [scLoop.eq_def]
  simp [h]

theorem scLoop_line_skip {st : SCState} (h : st.inLineComment = true)
    {c : Char} (hc : ¬c = '\n') (cs : List Char) :
    scLoop st (c :: cs) = scLoop st cs := by
  rw [scLoop.eq_def]
  simp [h, hc]

theorem scLoop_block_close {st : SCState} (h1 : ¬st.inLineComment = true)
    (h2 : st.inBlockComment = true) (rest : List Char) :
    scLoop st ('*' :: '/' :: rest) =
      scLoop { st with inBlockComment := false } rest := by
  rw [scLoop.eq_def]
  simp [h1, h2]

theorem scLoop_block_star {st : SCState} (h1 : ¬st.inLineComment = true)
    (h2 : st.inBlockComment = true) {cs : List Char}
    (hcs : cs.head? ≠ some '/') :
    scLoop st ('*' :: cs) = scLoop st cs := by
  rw [scLoop.eq_def]
  dsimp only
  rw [if_neg h1, if_pos h2, if_pos rfl]
  split
  · exact absurd rfl hcs
  · rfl

theorem scLoop_block_skip {st : SCState} (h1 : ¬st.inLineComment = true)
    (h2 : st.inBlockComment = true) {c : Char} (hc : ¬c = '*')
    (cs : List Char) : scLoop st (c :: cs) = scLoop st cs := by
  rw [scLoop.eq_def]
  simp [h1, h2, hc]

/-- The state transition inside a string literal. -/
def scStrNext (st : SCState) (c : Char) : SCState :=
  if st.escape then { st with escape := false }
  else if c = '\\' then { st with escape := true }
  else if c = '"' then { st with inString := false }
  else st

theorem scLoop_str_step {st : SCState} (h1 : ¬st.inLineComment = true)
    (h2 : ¬st.inBlockComment = true) (h3 : st.inString = true) (c : Char)
    (cs : List Char) :
    scLoop st (c :: cs) =
      (c :: (scLoop (scStrNext st c) cs).1, (scLoop (scStrNext st c) cs).2) := by
  rw [scLoop.eq_def]
  dsimp only
  rw [if_neg h1, if_neg h2, if_pos h3]
  rfl

theorem scLoop_enter {st : SCState} (h1 : ¬st.inLineComment = true)
    (h2 : ¬st.inBlockComment = true) (h3 : ¬st.inString = true)
    (cs : List Char) :
    scLoop st ('"' :: cs) =
      ('"' :: (scLoop { st with inString := true } cs).1,
        (scLoop { st with inString := true } cs).2) := by
  rw [scLoop.eq_def]
  dsimp only
  rw [if_neg h1, if_neg h2, if_neg h3, if_pos rfl]

theorem scLoop_line_enter {st : SCState} (h1 : ¬st.inLineComment = true)
    (h2 : ¬st.inBlockComment = true) (h3 : ¬st.inString = true)
    (rest : List Char) :
    scLoop st ('/' :: '/' :: rest) =
      scLoop { st with inLineComment := true } rest := by
  rw [scLoop.eq_def]
  dsimp only
  rw [if_neg h1, if_neg h2, if_neg h3, if_neg (by decide), if_pos rfl]
  rfl

theorem scLoop_block_enter {st : SCState} (h1 : ¬st.inLineComment = true)
    (h2 : ¬st.inBlockComment = true) (h3 : ¬st.inString = true)
    (rest : List Char) :
    scLoop st ('/' :: '*' :: rest) =
      scLoop { st with inBlockComment := true } rest := by
  rw [scLoop.eq_def]
  dsimp only
  rw [if_neg h1, if_neg h2, if_neg h3, if_neg (by decide), if_pos rfl]
  rfl

theorem scLoop_slash_plain {st : SCState} (h1 : ¬st.inLineComment = true)
    (h2 : ¬st.inBlockComment = true) (h3 : ¬st.inString = true)
    {cs : List Char} (hcs : cs.head? ≠ some '/' ∧ cs.head? ≠ some '*') :
    scLoop st ('/' :: cs) =
      ('/' :: (scLoop st cs).1, (scLoop st cs).2) := by
  rw [scLoop.eq_def]
  dsimp only
  rw [if_neg h1, if_neg h2, if_neg h3, if_neg (by decide), if_pos rfl]
  split
  · exact absurd rfl hcs.1
  · exact absurd rfl hcs.2
  · rfl

theorem scLoop_plain {st : SCState} (h1 : ¬st.inLineComment = true)
    (h2 : ¬st.inBlockComment = true) (h3 : ¬st.inString = true) {c : Char}
    (hq : ¬c = '"') (hs : ¬c = '/') (cs : List Char) :
    scLoop st (c :: cs) =
      (c :: (scLoop st cs).1, (scLoop st cs).2) := by
  rw [scLoop.eq_def]
  dsimp only
  rw [if_neg h1, if_neg h2, if_neg h3, if_neg hq, if_neg hs]

theorem head?_ne_of_no_cons {cs' : List Char} {x : Char}
    (h : ∀ rest, cs' = x :: rest → False) : cs'.head? ≠ some x := by
  cases cs' with
  | nil => simp
  | cons c cs =>
    intro hc
    have hcx : c = x := by simpa using hc
    exact h cs (by rw [hcx])

theorem head?_append_ne {cs' tail : List Char} {x : Char}
    (h : ∀ rest, cs' = x :: rest → False) (hhead : tail.head? = some '"')
    (hx : ¬x = '"') : (cs' ++ tail).head? ≠ some x := by
  cases cs' with
  | nil =>
    rw [List.nil_append, hhead]
    intro hc
    exact hx (Option.some_inj.mp hc).symm
  | cons c cs =>
    intro hc
    have hcx : c = x := by simpa using hc
    exact h cs (by rw [hcx])

theorem scLoop_gap_append (tail : List Char)
    (hhead : tail.head? = some '"') :
    ∀ (st : SCState) (g : List Char),
      scLoop st (g ++ tail) =
        ((scLoop st g).1 ++ (scLoop (scLoop st g).2 tail).1,
          (scLoop (scLoop st g).2 tail).2) := by
  intro st g
  induction st, g using scLoop.induct with
  | case1 st => simp [scLoop_nil]
  | case2 st cs h ih =>
    rw [List.cons_append, scLoop_line_nl h, scLoop_line_nl h, ih]
    simp
  | case3 st c cs h hc ih =>
    rw [List.cons_append, scLoop_line_skip h hc, scLoop_line_skip h hc, ih]
  | case4 st h1 h2 rest ih =>
    rw [List.cons_append, List.cons_append, scLoop_block_close h1 h2,
      scLoop_block_close h1 h2, ih]
  | case5 st h1 h2 cs' hne ih =>
    rw [List.cons_append,
      scLoop_block_star h1 h2 (head?_append_ne hne hhead (by decide)),
      scLoop_block_star h1 h2 (head?_ne_of_no_cons hne), ih]
  | case6 st c cs h1 h2 hc ih =>
    rw [List.cons_append, scLoop_block_skip h1 h2 hc,
      scLoop_block_skip h1 h2 hc, ih]
  | case7 st c cs h1 h2 h3 st' ih =>
    rw [List.cons_append, scLoop_str_step h1 h2 h3, scLoop_str_step h1 h2 h3]
    have hst : scStrNext st c = st' := by
      rw [scStrNext]
    rw [hst, ih]
    simp
  | case8 st cs h1 h2 h3 ih =>
    rw [List.cons_append, scLoop_enter h1 h2 h3, scLoop_enter h1 h2 h3, ih]
    simp
  | case9 st h1 h2 h3 rest hq ih =>
    rw [List.cons_append, List.cons_append, scLoop_line_enter h1 h2 h3,
      scLoop_line_enter h1 h2 h3, ih]
  | case10 st h1 h2 h3 rest hq ih =>
    rw [List.cons_append, List.cons_append, scLoop_block_enter h1 h2 h3,
      scLoop_block_enter h1 h2 h3, ih]
  | case11 st h1 h2 h3 cs' hne1 hne2 hq ih =>
    rw [List.cons_append,
      scLoop_slash_plain h1 h2 h3
        ⟨head?_append_ne hne1 hhead (by decide),
         head?_append_ne hne2 hhead (by decide)⟩,
      scLoop_slash_plain h1 h2 h3
        ⟨head?_ne_of_no_cons hne1, head?_ne_of_no_cons hne2⟩, ih]
    simp
  | case12 st c cs h1 h2 h3 hq hs ih =>
    rw [List.cons_append, scLoop_plain h1 h2 h3 hq hs,
      scLoop_plain h1 h2 h3 hq hs, ih]
    simp

theorem scLoop_renderDoc :
    ∀ (pairs : List (List Char × List Char)) (finalGap : List Char),
      (∀ p ∈ pairs, gapOK p.1 ∧ strOK p.2 = true) → gapOK finalGap →
      scLoop scInit (renderDoc pairs finalGap) =
        (renderDoc (pairs.map fun p => ((scLoop scInit p.1).1, p.2))
          (scLoop scInit finalGap).1, scInit) := by
  intro pairs
  induction pairs with
  | nil =>
    intro finalGap _ hf
    rw [renderDoc.eq_def, renderDoc.eq_def]
    exact Prod.ext rfl hf.2
  | cons p ps ih =>
    intro finalGap hp hf
    obtain ⟨hgap, hstr⟩ := hp p (List.mem_cons_self p ps)
    rw [show renderDoc (p :: ps) finalGap =
        p.1 ++ '"' :: (p.2 ++ '"' :: renderDoc ps finalGap) from by
      rw [renderDoc]]
    rw [scLoop_gap_append ('"' :: (p.2 ++ '"' :: renderDoc ps finalGap)) rfl,
      hgap.2, scLoop_literal hstr,
      ih finalGap (fun q hq => hp q (List.mem_cons_of_mem p hq)) hf]
    rw [List.map_cons]
    rw [show renderDoc (((scLoop scInit p.1).1, p.2) ::
          ps.map fun q => ((scLoop scInit q.1).1, q.2))
          (scLoop scInit finalGap).1 =
        (scLoop scInit p.1).1 ++ '"' :: (p.2 ++ '"' ::
          renderDoc (ps.map fun q => ((scLoop scInit q.1).1, q.2))
            (scLoop scInit finalGap).1) from by rw [renderDoc]]

theorem stripJSONComments_renderDoc
    {pairs : List (List Char × List Char)} {finalGap : List Char}
    (hp : ∀ p ∈ pairs, gapOK p.1 ∧ strOK p.2 = true) (hf : gapOK finalGap) :
    stripJSONComments (renderDoc pairs finalGap) =
      .ok (renderDoc (pairs.map fun p => ((scLoop scInit p.1).1, p.2))
        (scLoop scInit finalGap).1) := by
  rw [stripJSONComments, scLoop_renderDoc pairs finalGap hp hf]
  rfl

theorem stc_nil (b e : Bool) : stcLoop b e [] = [] := by
  rw [stcLoop.eq_def]

theorem stc_str_esc (c : Char) (cs : List Char) :
    stcLoop true true (c :: cs) = c :: stcLoop true false cs := by
  rw [stcLoop.eq_def]
  simp

theorem stc_str_bs (cs : List Char) :
    stcLoop true false ('\\' :: cs) = '\\' :: stcLoop true true cs := by
  rw [stcLoop.eq_def]
  simp

theorem stc_str_close (cs : List Char) :
    stcLoop true false ('"' :: cs) = '"' :: stcLoop false false cs := by
  rw [stcLoop.eq_def]
  simp

theorem stc_str_other {c : Char} (h1 : ¬c = '\\') (h2 : ¬c = '"')
    (cs : List Char) :
    stcLoop true false (c :: cs) = c :: stcLoop true false cs := by
  rw [stcLoop.eq_def]
  simp [h1, h2]

theorem stc_enter (e : Bool) (cs : List Char) :
    stcLoop false e ('"' :: cs) = '"' :: stcLoop true e cs := by
  rw [stcLoop.eq_def]
  simp

theorem stc_comma_drop {cs : List Char}
    (h : (cs.dropWhile isJSONWhitespace).head? = some '\x7d' ∨
      (cs.dropWhile isJSONWhitespace).head? = some ']') (e : Bool) :
    stcLoop false e (',' :: cs) = stcLoop false e cs := by
  rw [stcLoop.eq_def]
  dsimp only
  rw [if_neg (by decide), if_neg (by decide), if_pos rfl]
  rcases h with h | h <;> rw [h] <;> rfl

theorem stc_comma_keep {cs : List Char}
    (h1 : (cs.dropWhile isJSONWhitespace).head? ≠ some '\x7d')
    (h2 : (cs.dropWhile isJSONWhitespace).head? ≠ some ']') (e : Bool) :
    stcLoop false e (',' :: cs) = ',' :: stcLoop false e cs := by
  rw [stcLoop.eq_def]
  dsimp only
  rw [if_neg (by decide), if_neg (by decide), if_pos rfl]
  split
  · next heq => exact absurd heq h1
  · next heq => exact absurd heq h2
  · rfl

theorem stc_plain {c : Char} (hq : ¬c = '"') (hc : ¬c = ',') (e : Bool)
    (cs : List Char) :
    stcLoop false e (c :: cs) = c :: stcLoop false e cs := by
  rw [stcLoop.eq_def]
  simp [hq, hc]

theorem stc_string_append :
    ∀ {b : List Char}, strOK b = true → ∀ tail,
      stcLoop true false (b ++ tail) = b ++ stcLoop true false tail := by
  intro b
  induction b using strOK.induct with
  | case1 => intro _ tail; rw [List.nil_append, List.nil_append]
  | case2 => intro h _; rw [strOK.eq_def] at h; simp at h
  | case3 d cs' ih =>
    intro h tail
    have h' : strOK cs' = true := by rwa [strOK_bs] at h
    rw [List.cons_append, List.cons_append, stc_str_bs, stc_str_esc, ih h' tail]
    rfl
  | case4 cs' hne =>
    intro h _
    rw [strOK_quote] at h
    exact absurd h (by simp)
  | case5 c cs' hbs hq ih =>
    intro h tail
    have h' : strOK cs' = true := by rwa [strOK_other hbs hq] at h
    rw [List.cons_append, stc_str_other hbs hq, ih h' tail]
    rfl

theorem stc_literal {b : List Char} (h : strOK b = true) (rest : List Char) :
    stcLoop false false ('"' :: (b ++ '"' :: rest)) =
      '"' :: (b ++ '"' :: stcLoop false false rest) := by
  rw [stc_enter, stc_string_append h ('"' :: rest), stc_str_close]

theorem stc_gap_append {tail : List Char} (hhead : tail.head? = some '"') :
    ∀ {g : List Char}, ¬ '"' ∈ g →
      stcLoop false false (g ++ tail) =
        stcLoop false false g ++ stcLoop false false tail := by
  intro g
  induction g with
  | nil => intro _; rw [List.nil_append, stc_nil, List.nil_append]
  | cons c cs ih =>
    intro hg
    have hc : ¬c = '"' := fun h => hg (h ▸ List.mem_cons_self c cs)
    have hcs : ¬ '"' ∈ cs := fun h => hg (List.mem_cons_of_mem c h)
    obtain ⟨t, ts, rfl⟩ : ∃ t ts, tail = t :: ts := by
      cases tail with
      | nil => exact absurd hhead (by simp)
      | cons t ts => exact ⟨t, ts, rfl⟩
    have ht : t = '"' := by simpa using hhead
    by_cases hcm : c = ','
    · subst hcm
      rw [List.cons_append]
      rcases hdw : cs.dropWhile isJSONWhitespace with _ | ⟨d, ds⟩
      · have hdwapp : ((cs ++ t :: ts).dropWhile isJSONWhitespace).head? =
            some '"' := by
          rw [List.dropWhile_append, hdw]
          simp [ht, List.dropWhile, isJSONWhitespace]
        rw [stc_comma_keep (by rw [hdwapp]; decide) (by rw [hdwapp]; decide),
          stc_comma_keep (by rw [hdw]; decide) (by rw [hdw]; decide),
          ih hcs]
        rfl
      · have hdwapp : (cs ++ t :: ts).dropWhile isJSONWhitespace =
            d :: (ds ++ t :: ts) := by
          rw [List.dropWhile_append, hdw]
          simp
        by_cases hd : d = '\x7d' ∨ d = ']'
        · rw [stc_comma_drop (by
              rw [hdwapp]
              rcases hd with hd | hd <;> rw [hd] <;> simp) _,
            stc_comma_drop (by
              rw [hdw]
              rcases hd with hd | hd <;> rw [hd] <;> simp) _,
            ih hcs]
        · push_neg at hd
          rw [stc_comma_keep (by rw [hdwapp]; simpa using hd.1)
              (by rw [hdwapp]; simpa using hd.2) _,
            stc_comma_keep (by rw [hdw]; simpa using hd.1)
              (by rw [hdw]; simpa using hd.2) _,
            ih hcs]
          rfl
    · rw [List.cons_append, stc_plain hc hcm, stc_plain hc hcm, ih hcs]
      rfl

theorem scLoop_no_quote :
    ∀ (st : SCState) (g : List Char), ¬ '"' ∈ g → ¬ '"' ∈ (scLoop st g).1 := by
  intro st g
  induction st, g using scLoop.induct with
  | case1 st => intro _; rw [scLoop_nil]; simp
  | case2 st cs h ih =>
    intro hg
    rw [scLoop_line_nl h]
    intro hmem
    rcases List.mem_cons.mp hmem with h' | h'
    · exact absurd h'.symm (by decide)
    · exact ih (fun hm => hg (List.mem_cons_of_mem _ hm)) h'
  | case3 st c cs h hc ih =>
    intro hg
    rw [scLoop_line_skip h hc]
    exact ih fun hm => hg (List.mem_cons_of_mem _ hm)
  | case4 st h1 h2 rest ih =>
    intro hg
    rw [scLoop_block_close h1 h2]
    exact ih fun hm =>
      hg (List.mem_cons_of_mem _ (List.mem_cons_of_mem _ hm))
  | case5 st h1 h2 cs' hne ih =>
    intro hg
    rw [scLoop_block_star h1 h2 (head?_ne_of_no_cons hne)]
    exact ih fun hm => hg (List.mem_cons_of_mem _ hm)
  | case6 st c cs h1 h2 hc ih =>
    intro hg
    rw [scLoop_block_skip h1 h2 hc]
    exact ih fun hm => hg (List.mem_cons_of_mem _ hm)
  | case7 st c cs h1 h2 h3 st' ih =>
    intro hg
    rw [scLoop_str_step h1 h2 h3]
    intro hmem
    rcases List.mem_cons.mp hmem with h' | h'
    · exact hg (h' ▸ List.mem_cons_self c cs)
    · have hst : scStrNext st c = st' := by rw [scStrNext]
      exact ih (fun hm => hg (List.mem_cons_of_mem _ hm)) (hst ▸ h')
  | case8 st cs h1 h2 h3 ih =>
    intro hg
    exact absurd (List.mem_cons_self '"' cs) hg
  | case9 st h1 h2 h3 rest hq ih =>
    intro hg
    rw [scLoop_line_enter h1 h2 h3]
    exact ih fun hm =>
      hg (List.mem_cons_of_mem _ (List.mem_cons_of_mem _ hm))
  | case10 st h1 h2 h3 rest hq ih =>
    intro hg
    rw [scLoop_block_enter h1 h2 h3]
    exact ih fun hm =>
      hg (List.mem_cons_of_mem _ (List.mem_cons_of_mem _ hm))
  | case11 st h1 h2 h3 cs' hne1 hne2 hq ih =>
    intro hg
    rw [scLoop_slash_plain h1 h2 h3
      ⟨head?_ne_of_no_cons hne1, head?_ne_of_no_cons hne2⟩]
    intro hmem
    rcases List.mem_cons.mp hmem with h' | h'
    · exact absurd h'.symm (by decide)
    · exact ih (fun hm => hg (List.mem_cons_of_mem _ hm)) h'
  | case12 st c cs h1 h2 h3 hcq hcs ih =>
    intro hg
    rw [scLoop_plain h1 h2 h3 hcq hcs]
    intro hmem
    rcases List.mem_cons.mp hmem with h' | h'
    · exact hg (h' ▸ List.mem_cons_self c cs)
    · exact ih (fun hm => hg (List.mem_cons_of_mem _ hm)) h'

theorem stc_renderDoc :
    ∀ (pairs : List (List Char × List Char)) (finalGap : List Char),
      (∀ p ∈ pairs, ¬ '"' ∈ p.1 ∧ strOK p.2 = true) → ¬ '"' ∈ finalGap →
      stripTrailingCommas (renderDoc pairs finalGap) =
        renderDoc (pairs.map fun p => (stripTrailingCommas p.1, p.2))
          (stripTrailingCommas finalGap) := by
  intro pairs
  induction pairs with
  | nil =>
    intro finalGap _ _
    rw [List.map_nil, renderDoc.eq_def, renderDoc.eq_def]
  | cons p ps ih =>
    intro finalGap hp hf
    obtain ⟨hgap, hstr⟩ := hp p (List.mem_cons_self p ps)
    rw [show renderDoc (p :: ps) finalGap =
        p.1 ++ '"' :: (p.2 ++ '"' :: renderDoc ps finalGap) from by
      rw [renderDoc]]
    rw [stripTrailingCommas,
      @stc_gap_append ('"' :: (p.2 ++ '"' :: renderDoc ps finalGap)) rfl p.1
        hgap,
      stc_literal hstr,
      show stcLoop false false (renderDoc ps finalGap) =
        stripTrailingCommas (renderDoc ps finalGap) from rfl,
      ih finalGap (fun q hq => hp q (List.mem_cons_of_mem p hq)) hf,
      List.map_cons]
    rw [show renderDoc ((stripTrailingCommas p.1, p.2) ::
          ps.map fun q => (stripTrailingCommas q.1, q.2))
          (stripTrailingCommas finalGap) =
        stripTrailingCommas p.1 ++ '"' :: (p.2 ++ '"' ::
          renderDoc (ps.map fun q => (stripTrailingCommas q.1, q.2))
            (stripTrailingCommas finalGap)) from by rw [renderDoc]]
    rfl

/-- C7. Relaxed-JSON normalization (comment stripping, then trailing-comma
stripping) maps a document carved into well-formed gaps and string literals
to the document with the same literals byte-for-byte — the contents of
every string literal, including texts that look like comments or trailing
commas, are untouched; only the gaps are transformed. -/
theorem normalize_preserves_strings
    (pairs : List (List Char × List Char)) (finalGap : List Char)
    (hp : ∀ p ∈ pairs, gapOK p.1 ∧ strOK p.2 = true) (hf : gapOK finalGap) :
    normalizeRelaxedJSON (renderDoc pairs finalGap) =
      .ok (renderDoc (pairs.map fun p => (gapT p.1, p.2)) (gapT finalGap)) := by
  rw [normalizeRelaxedJSON, stripJSONComments_renderDoc hp hf]
  rw [show (Except.ok (renderDoc
        (pairs.map fun p => ((scLoop scInit p.1).1, p.2))
        (scLoop scInit finalGap).1) :
      Except String (List Char)).map stripTrailingCommas =
    Except.ok (stripTrailingCommas (renderDoc
        (pairs.map fun p => ((scLoop scInit p.1).1, p.2))
        (scLoop scInit finalGap).1)) from rfl]
  rw [stc_renderDoc _ _ ?_ ?_]
  · rw [List.map_map]
    rfl
  · intro q hq
    obtain ⟨p, hpmem, rfl⟩ := List.mem_map.mp hq
    exact ⟨scLoop_no_quote scInit p.1 (hp p hpmem).1.1, (hp p hpmem).2⟩
  · exact scLoop_no_quote scInit finalGap hf.1

/-- A concrete relaxed document holding the three literals of the spec's
round-trip property, plus a trailing comma in the final gap. -/
def demoPairs : List (List Char × List Char) :=
  [("\x7b ".toList, "a".toList),
   (": ".toList, "// not a comment".toList),
   (", ".toList, "b".toList),
   (": ".toList, "/* not a comment */".toList),
   (", ".toList, "c".toList),
   (": ".toList, "a, \x7d".toList)]

/-- The closing gap of the demo document (carrying a trailing comma). -/
def demoFinalGap : List Char := " , \x7d".toList

/-- Witness for C7: on the demo document the normalization keeps every
literal byte-identical (the result is the same decomposition with only the
gaps transformed — the trailing comma in the final gap disappears). -/
theorem normalize_preserves_strings_witness :
    (∀ p ∈ demoPairs, gapOK p.1 ∧ strOK p.2 = true) ∧ gapOK demoFinalGap ∧
      normalizeRelaxedJSON (renderDoc demoPairs demoFinalGap) =
        .ok (renderDoc (demoPairs.map fun p => (gapT p.1, p.2))
          (gapT demoFinalGap)) :=
  ⟨by decide, by decide,
    normalize_preserves_strings demoPairs demoFinalGap (by decide) (by decide)⟩

end GoZedTasks
